import Mathlib

/-!
SimpleCallback: selection, odometer and checkpointing.

A shallow embedding of `opencog/generate/SimpleCallback.cc`.

* Atoms are compared by content in the source (`*a == *b`), so sections and
  connectors are plain values with decidable equality.
* `Handle::UNDEFINED` is a constructor of `Handle`; the lists handed out by
  the dictionary and the frame hold sections, never the undefined handle.
* `create_unique_section`, `num_undirected_links` and the dictionary live
  outside `SimpleCallback.cc`: the first is kept symbolic (`Handle.unique`),
  the other two are arguments of the functions that call them.
* The root iterators are indices into their vector; an index equal to the
  length is `end()`. Dereferencing at or beyond `end()` is a `Fault`.
* `unsigned` cursors wrap at `2 ^ 32`, `size_t` counters at `2 ^ 64`.
-/

namespace opencog

/-! ## Data model -/

/-- Atoms that this file never looks into (points, link types, links). -/
abbrev Atom := Nat

/-- Connector atom: `getOutgoingAtom(0)` is the link type. -/
structure Connector where
  linkty : Atom
  direction : Atom
  deriving DecidableEq, Repr

/-- Section atom: a point and `getOutgoingAtom(1)`, the connector sequence. -/
structure Section where
  point : Atom
  conseq : List Connector
  deriving DecidableEq, Repr

/-- Value of a `Handle` returned by the selection functions. -/
inductive Handle where
  | UNDEFINED
  | sect (s : Section)
  | unique (template : Section)
  deriving DecidableEq, Repr

/-- The set type `HandleSet` returned by `next_root`. -/
abbrev HandleSet := Finset Section

/-- Undefined behaviour of the C++ source that the model makes explicit. -/
inductive Fault where
  | deref_past_end
  | empty_stack
  deriving DecidableEq, Repr

/-- Equality of results is decidable, so that calls can be evaluated. -/
instance instDecidableEqExcept {ε α : Type} [DecidableEq ε] [DecidableEq α] :
    DecidableEq (Except ε α) := fun a b =>
  match a, b with
  | .ok x, .ok y => if h : x = y then isTrue (by rw [h]) else isFalse (fun h2 => h (by cases h2; rfl))
  | .error x, .error y =>
    if h : x = y then isTrue (by rw [h]) else isFalse (fun h2 => h (by cases h2; rfl))
  | .ok _, .error _ => isFalse (fun h => by cases h)
  | .error _, .ok _ => isFalse (fun h => by cases h)

/-- Dictionary collaborator, read only. -/
structure Dictionary where
  entries : Atom → List Section
  connectables : Connector → List Section

/-- Frame of the assembler; the callback only reads it. -/
structure Frame where
  _open_sections : List Section
  _linkage : List Atom
  _nodo : Nat

/-- The type `HandleUCounter`: a map from connectors to `unsigned`. -/
abbrev HandleUCounter := List (Connector × Nat)

/-- The type `HandleSeqMap`: a map from connectors to section sequences. -/
abbrev HandleSeqMap := List (Connector × List Section)

/-- Lookup with a default, `Counter::get(key, dflt)`. -/
def mapGet {V : Type} (m : List (Connector × V)) (k : Connector) (dflt : V) : V :=
  (m.lookup k).getD dflt

/-- Membership test, `m.find(k) != m.end()`. -/
def mapHas {V : Type} (m : List (Connector × V)) (k : Connector) : Bool :=
  (m.lookup k).isSome

/-- Removal of a key, `m.erase(k)`. -/
def mapErase {V : Type} (m : List (Connector × V)) (k : Connector) : List (Connector × V) :=
  m.filter (fun e => decide (e.1 ≠ k))

/-- Assignment, `m[k] = v`. -/
def mapSet {V : Type} (m : List (Connector × V)) (k : Connector) (v : V) : List (Connector × V) :=
  (k, v) :: mapErase m k

/-- Access through `operator[]`: a missing key is inserted with the default. -/
def mapTouch {V : Type} (m : List (Connector × V)) (k : Connector) (dflt : V) :
    List (Connector × V) :=
  if mapHas m k then m else mapSet m k dflt

/-- Range of an `unsigned`. -/
def UINT_RANGE : Nat := 2 ^ 32

/-- Range of a `size_t`. -/
def SIZE_RANGE : Nat := 2 ^ 64

/-- Per-frame index of open candidates. -/
structure OpenSelections where
  _opensect : HandleSeqMap
  _openit : HandleUCounter
  deriving DecidableEq, Repr

/-- State of a `SimpleCallback` with the limits inherited from the base class. -/
structure SimpleCallback where
  max_steps : Nat
  max_solutions : Nat
  max_network_size : Nat
  max_depth : Nat
  max_pair_links : Nat
  allow_self_connections : Bool
  _lexlit : HandleUCounter
  _lexlit_stack : List HandleUCounter
  _opensel : OpenSelections
  _opensel_stack : List OpenSelections
  _root_sections : List (List Section)
  _root_iters : List Nat
  _steps_taken : Nat
  _num_solutions_found : Nat
  deriving DecidableEq, Repr

/-! ## Construction and reset -/

/-- Constructor: both counters start at zero, every container is empty. -/
def SimpleCallback.new (max_steps max_solutions max_network_size max_depth
    max_pair_links : Nat) (allow_self_connections : Bool) : SimpleCallback :=
  { max_steps := max_steps, max_solutions := max_solutions,
    max_network_size := max_network_size, max_depth := max_depth,
    max_pair_links := max_pair_links,
    allow_self_connections := allow_self_connections,
    _lexlit := [], _lexlit_stack := [],
    _opensel := { _opensect := [], _openit := [] }, _opensel_stack := [],
    _root_sections := [], _root_iters := [],
    _steps_taken := 0, _num_solutions_found := 0 }

/-- Body of `SimpleCallback::clear`. -/
def clear (cb : SimpleCallback) : SimpleCallback :=
  { cb with
    _lexlit_stack := [], _opensel_stack := [],
    _lexlit := [],
    _opensel := { _opensect := [], _openit := [] },
    _root_sections := [], _root_iters := [],
    _steps_taken := 0, _num_solutions_found := 0 }

/-- The loop of `root_set`: one candidate list and one iterator per root. -/
def root_set_loop (dict : Dictionary) : List Atom → SimpleCallback → SimpleCallback
  | [], cb => cb
  | point :: rest, cb =>
    root_set_loop dict rest
      { cb with
        _root_sections := cb._root_sections ++ [dict.entries point],
        _root_iters := cb._root_iters ++ [0] }

/-- Body of `SimpleCallback::root_set`; `roots` is the set in iteration order. -/
def root_set (dict : Dictionary) (cb : SimpleCallback) (roots : List Atom) : SimpleCallback :=
  root_set_loop dict roots (clear cb)

/-! ## The odometer -/

/-- The `for` loop of `next_root`, from digit `i` on, with `fuel = len - i`
iterations left. The second component is `none` for `return empty_set`. -/
def next_root_loop (sections : List (List Section)) (len : Nat) :
    Nat → Nat → List Nat → HandleSet → Except Fault (List Nat × Option HandleSet)
  | 0, _, iters, starters => .ok (iters, some starters)
  | fuel + 1, i, iters, starters =>
    let iter := iters.getD i 0
    let sec := sections.getD i []
    if sec.length = iter then
      if len - 1 = i then .ok (iters, none)
      else
        let iters1 := iters.set i 0
        let iters2 := iters1.set (i + 1) (iters1.getD (i + 1) 0 + 1)
        match sec[0]? with
        | none => .error Fault.deref_past_end
        | some h => next_root_loop sections len fuel (i + 1) iters2 (insert h starters)
    else if 0 = i then
      let iters1 := iters.set 0 (iters.getD 0 0 + 1)
      match sec[iter]? with
      | none => .error Fault.deref_past_end
      | some h => next_root_loop sections len fuel (i + 1) iters1 (insert h starters)
    else
      match sec[iter]? with
      | none => .error Fault.deref_past_end
      | some h => next_root_loop sections len fuel (i + 1) iters (insert h starters)

/-- Body of `SimpleCallback::next_root`. -/
def next_root (cb : SimpleCallback) : Except Fault (SimpleCallback × HandleSet) :=
  let len := cb._root_iters.length
  if len = 0 then .ok (cb, ∅)
  else if cb.max_steps < cb._steps_taken then .ok (cb, ∅)
  else if cb.max_solutions ≤ cb._num_solutions_found then .ok (cb, ∅)
  else
    match next_root_loop cb._root_sections len len 0 cb._root_iters ∅ with
    | .error e => .error e
    | .ok (iters, none) => .ok ({ cb with _root_iters := iters }, ∅)
    | .ok (iters, some starters) => .ok ({ cb with _root_iters := iters }, starters)

/-- Result of call number `n` (counted from zero) of `next_root` in a row. -/
def next_root_nth : Nat → SimpleCallback → Except Fault (SimpleCallback × HandleSet)
  | 0, cb => next_root cb
  | n + 1, cb =>
    match next_root cb with
    | .error e => .error e
    | .ok (cb1, _) => next_root_nth n cb1

/-! ## Selection -/

/-- The callback with its lexicon cursor map `_lexlit` replaced. -/
def with_lexlit (cb : SimpleCallback) (lexlit : HandleUCounter) : SimpleCallback :=
  { cb with _lexlit := lexlit }

/-- Body of `SimpleCallback::select_from_lexis`; the parameters `frame`,
`fm_sect` and `offset` are not used by the source and are left out. -/
def select_from_lexis (dict : Dictionary) (cb : SimpleCallback) (to_con : Connector) :
    SimpleCallback × Handle :=
  let to_sects := dict.connectables to_con
  let curit := mapGet cb._lexlit to_con 0
  if 0 = curit then
    match to_sects[0]? with
    | none => (cb, Handle.UNDEFINED)
    | some s => (with_lexlit cb (mapSet cb._lexlit to_con 1), Handle.unique s)
  else if to_sects.length ≤ curit then
    (with_lexlit cb (mapErase cb._lexlit to_con), Handle.UNDEFINED)
  else
    match to_sects[curit]? with
    | none => (cb, Handle.UNDEFINED)
    | some s =>
      (with_lexlit cb (mapSet cb._lexlit to_con ((curit + 1) % UINT_RANGE)), Handle.unique s)

/-- The `while (true)` loop of `check_self`; the state it threads is the
cursor map `_opensel._openit`, and `fuel` bounds the iterations by the number
of candidates left. -/
def check_self_loop (to_sects : List Section) (fm_sect : Section) (to_con : Connector) :
    Nat → Nat → HandleUCounter → HandleUCounter × Handle
  | 0, _, openit => (openit, Handle.UNDEFINED)
  | fuel + 1, fit, openit =>
    match to_sects[fit]? with
    | none => (openit, Handle.UNDEFINED)
    | some tosect =>
      if tosect ≠ fm_sect then (openit, Handle.sect tosect)
      else
        let openit1 := mapSet openit to_con ((fit + 1) % UINT_RANGE)
        if to_sects.length ≤ fit + 1 then (openit1, Handle.UNDEFINED)
        else check_self_loop to_sects fm_sect to_con fuel (fit + 1) openit1

/-- The callback with its cursor map `_opensel._openit` replaced. -/
def with_openit (cb : SimpleCallback) (openit : HandleUCounter) : SimpleCallback :=
  { cb with _opensel := { _opensect := cb._opensel._opensect, _openit := openit } }

/-- The callback with its candidate-list map `_opensel._opensect` replaced. -/
def with_opensect (cb : SimpleCallback) (opensect : HandleSeqMap) : SimpleCallback :=
  { cb with _opensel := { _opensect := opensect, _openit := cb._opensel._openit } }

/-- Body of `SimpleCallback::check_self`. -/
def check_self (cb : SimpleCallback) (to_sects : List Section) (fm_sect : Section)
    (to_con : Connector) (fit : Nat) : SimpleCallback × Handle :=
  if to_sects.length ≤ fit then (cb, Handle.UNDEFINED)
  else
    let openit1 := mapSet cb._opensel._openit to_con
      ((mapGet cb._opensel._openit to_con 0 + 1) % UINT_RANGE)
    if cb.allow_self_connections then
      match to_sects[fit]? with
      | none => (with_openit cb openit1, Handle.UNDEFINED)
      | some s => (with_openit cb openit1, Handle.sect s)
    else
      let r := check_self_loop to_sects fm_sect to_con (to_sects.length - fit) fit openit1
      (with_openit cb r.1, r.2)

/-- The inner loop of the scan in `select_from_open`, over the connectors of
one open section. -/
def scan_conseq (max_pair_links : Nat) (num_links : Section → Section → Atom → Nat)
    (fm_sect open_sect : Section) (to_con : Connector) :
    List Connector → List Section → List Section
  | [], to_sects => to_sects
  | con :: rest, to_sects =>
    if con = to_con then
      if max_pair_links ≤ num_links fm_sect open_sect to_con.linkty then
        scan_conseq max_pair_links num_links fm_sect open_sect to_con rest to_sects
      else
        scan_conseq max_pair_links num_links fm_sect open_sect to_con rest
          (to_sects ++ [open_sect])
    else scan_conseq max_pair_links num_links fm_sect open_sect to_con rest to_sects

/-- The outer loop of the scan in `select_from_open`, over the open sections. -/
def scan_open (max_pair_links : Nat) (num_links : Section → Section → Atom → Nat)
    (fm_sect : Section) (to_con : Connector) :
    List Section → List Section → List Section
  | [], to_sects => to_sects
  | open_sect :: rest, to_sects =>
    scan_open max_pair_links num_links fm_sect to_con rest
      (scan_conseq max_pair_links num_links fm_sect open_sect to_con open_sect.conseq to_sects)

/-- Body of `SimpleCallback::select_from_open`; the parameter `offset` is not
used by the source and is left out. -/
def select_from_open (num_links : Section → Section → Atom → Nat) (cb : SimpleCallback)
    (frame : Frame) (fm_sect : Section) (to_con : Connector) : SimpleCallback × Handle :=
  let fit := mapGet cb._opensel._openit to_con 0
  if 0 < fit then
    let cb1 := with_opensect cb (mapTouch cb._opensel._opensect to_con [])
    let to_sects := mapGet cb1._opensel._opensect to_con []
    check_self cb1 to_sects fm_sect to_con fit
  else
    let to_sects := scan_open cb.max_pair_links num_links fm_sect to_con
      frame._open_sections []
    if 0 = to_sects.length then (cb, Handle.UNDEFINED)
    else
      let cb1 := with_openit cb (mapSet cb._opensel._openit to_con 0)
      check_self cb1 to_sects fm_sect to_con 0

/-- Body of `SimpleCallback::select`. -/
def select (dict : Dictionary) (num_links : Section → Section → Atom → Nat)
    (cb : SimpleCallback) (frame : Frame) (fm_sect : Section) (to_con : Connector) :
    SimpleCallback × Handle :=
  let r := select_from_open num_links cb frame fm_sect to_con
  match r.2 with
  | Handle.UNDEFINED =>
    if mapHas r.1._opensel._opensect to_con then (r.1, Handle.UNDEFINED)
    else select_from_lexis dict r.1 to_con
  | h => (r.1, h)

/-! ## Checkpoints -/

/-- Body of `SimpleCallback::push_frame`. -/
def push_frame (cb : SimpleCallback) : SimpleCallback :=
  { cb with
    _opensel_stack := cb._opensel :: cb._opensel_stack,
    _opensel := { _opensect := [], _openit := [] } }

/-- Body of `SimpleCallback::pop_frame`; `top()` of an empty stack is a fault. -/
def pop_frame (cb : SimpleCallback) : Except Fault SimpleCallback :=
  match cb._opensel_stack with
  | [] => .error Fault.empty_stack
  | top :: rest => .ok { cb with _opensel := top, _opensel_stack := rest }

/-- Body of `SimpleCallback::push_odometer`. -/
def push_odometer (cb : SimpleCallback) : SimpleCallback :=
  { cb with _lexlit_stack := cb._lexlit :: cb._lexlit_stack, _lexlit := [] }

/-- Body of `SimpleCallback::pop_odometer`; `top()` of an empty stack is a fault. -/
def pop_odometer (cb : SimpleCallback) : Except Fault SimpleCallback :=
  match cb._lexlit_stack with
  | [] => .error Fault.empty_stack
  | top :: rest => .ok { cb with _lexlit := top, _lexlit_stack := rest }

/-! ## Limits -/

/-- Body of `SimpleCallback::step`. -/
def step (cb : SimpleCallback) (frm : Frame) : SimpleCallback × Bool :=
  let cb1 := { cb with _steps_taken := (cb._steps_taken + 1) % SIZE_RANGE }
  if cb1.max_steps < cb1._steps_taken then (cb1, false)
  else if cb1.max_solutions ≤ cb1._num_solutions_found then (cb1, false)
  else if cb1.max_network_size < frm._linkage.length then (cb1, false)
  else if cb1.max_depth < frm._nodo then (cb1, false)
  else (cb1, true)

/-- Body of `SimpleCallback::solution`; recording the frame is external. -/
def solution (cb : SimpleCallback) (_frm : Frame) : SimpleCallback :=
  { cb with _num_solutions_found := (cb._num_solutions_found + 1) % SIZE_RANGE }

/-! ## Call sequences -/

/-- One `select` call: its arguments together with the link counts that
`num_undirected_links` reports at that moment. -/
structure SelectCall where
  num_links : Section → Section → Atom → Nat
  frame : Frame
  fm_sect : Section
  to_con : Connector

/-- A run of `select` calls, with the handles they return in order. -/
def select_seq (dict : Dictionary) : List SelectCall → SimpleCallback → SimpleCallback × List Handle
  | [], cb => (cb, [])
  | a :: rest, cb =>
    let r := select dict a.num_links cb a.frame a.fm_sect a.to_con
    let q := select_seq dict rest r.1
    (q.1, r.2 :: q.2)

/-- A run of `select_from_open` calls for one connector within one frame. -/
def select_from_open_seq (num_links : Section → Section → Atom → Nat) (frame : Frame)
    (fm_sect : Section) (to_con : Connector) : Nat → SimpleCallback → SimpleCallback × List Handle
  | 0, cb => (cb, [])
  | n + 1, cb =>
    let r := select_from_open num_links cb frame fm_sect to_con
    let q := select_from_open_seq num_links frame fm_sect to_con n r.1
    (q.1, r.2 :: q.2)

/-- Operations an assembler issues between two checkpoints. -/
inductive Op where
  | select (call : SelectCall)
  | push_frame
  | pop_frame
  | push_odometer
  | pop_odometer

/-- Effect of one operation on the callback. -/
def apply_op (dict : Dictionary) : Op → SimpleCallback → Except Fault SimpleCallback
  | Op.select a, cb => .ok (select dict a.num_links cb a.frame a.fm_sect a.to_con).1
  | Op.push_frame, cb => .ok (push_frame cb)
  | Op.pop_frame, cb => pop_frame cb
  | Op.push_odometer, cb => .ok (push_odometer cb)
  | Op.pop_odometer, cb => pop_odometer cb

/-- Effect of a sequence of operations, stopping at the first fault. -/
def run (dict : Dictionary) : List Op → SimpleCallback → Except Fault SimpleCallback
  | [], cb => .ok cb
  | op :: rest, cb =>
    match apply_op dict op cb with
    | .error e => .error e
    | .ok cb1 => run dict rest cb1

/-- Sequences of `select` calls and properly nested push/pop pairs. -/
inductive Nested : List Op → Prop where
  | nil : Nested []
  | select (a : SelectCall) {ops : List Op} : Nested ops → Nested (Op.select a :: ops)
  | frame {inner rest : List Op} : Nested inner → Nested rest →
      Nested (Op.push_frame :: (inner ++ Op.pop_frame :: rest))
  | odometer {inner rest : List Op} : Nested inner → Nested rest →
      Nested (Op.push_odometer :: (inner ++ Op.pop_odometer :: rest))

/-- States a callback can be in: built by the constructor, then driven through
its member functions, with the public limits set at will. -/
inductive Reachable (dict : Dictionary) : SimpleCallback → Prop where
  | new (a b c d e : Nat) (f : Bool) : Reachable dict (SimpleCallback.new a b c d e f)
  | configure {cb : SimpleCallback} (a b c d e : Nat) (f : Bool) : Reachable dict cb →
      Reachable dict
        { cb with
          max_steps := a, max_solutions := b, max_network_size := c,
          max_depth := d, max_pair_links := e, allow_self_connections := f }
  | clear {cb : SimpleCallback} : Reachable dict cb → Reachable dict (clear cb)
  | root_set {cb : SimpleCallback} (roots : List Atom) : Reachable dict cb →
      Reachable dict (root_set dict cb roots)
  | next_root {cb cb1 : SimpleCallback} {r : HandleSet} : Reachable dict cb →
      next_root cb = .ok (cb1, r) → Reachable dict cb1
  | select_from_lexis {cb : SimpleCallback} (to_con : Connector) : Reachable dict cb →
      Reachable dict (select_from_lexis dict cb to_con).1
  | select_from_open {cb : SimpleCallback} (a : SelectCall) : Reachable dict cb →
      Reachable dict (select_from_open a.num_links cb a.frame a.fm_sect a.to_con).1
  | select {cb : SimpleCallback} (a : SelectCall) : Reachable dict cb →
      Reachable dict (select dict a.num_links cb a.frame a.fm_sect a.to_con).1
  | push_frame {cb : SimpleCallback} : Reachable dict cb → Reachable dict (push_frame cb)
  | pop_frame {cb cb1 : SimpleCallback} : Reachable dict cb → pop_frame cb = .ok cb1 →
      Reachable dict cb1
  | push_odometer {cb : SimpleCallback} : Reachable dict cb → Reachable dict (push_odometer cb)
  | pop_odometer {cb cb1 : SimpleCallback} : Reachable dict cb → pop_odometer cb = .ok cb1 →
      Reachable dict cb1
  | step {cb : SimpleCallback} (frm : Frame) : Reachable dict cb → Reachable dict (step cb frm).1
  | solution {cb : SimpleCallback} (frm : Frame) : Reachable dict cb →
      Reachable dict (solution cb frm)

/-! ## Concrete inputs -/

/-- First entry piece of the scenario of section 8. -/
def P1 : Section := ⟨1, []⟩
/-- Second entry piece of the scenario of section 8. -/
def P2 : Section := ⟨2, []⟩
/-- Dictionary with one anchor (atom 0) that has the two entries `P1`, `P2`. -/
def dictA : Dictionary := ⟨fun a => if a = 0 then [P1, P2] else [], fun _ => []⟩

/-- Connector of link type 7 that the concrete frames look for. -/
def conC : Connector := ⟨7, 1⟩

/-- The mate of `conC`. -/
def conP : Connector := ⟨7, 0⟩

/-- Connector of another link type. -/
def conD : Connector := ⟨8, 0⟩

/-- Open section exposing `conC`. -/
def secF : Section := ⟨5, [conP, conC]⟩

/-- Second open section exposing `conC`. -/
def secG : Section := ⟨6, [conC]⟩

/-- Section that does not expose `conC`. -/
def secA : Section := ⟨4, [conP, conD]⟩

/-- First lexicon candidate for `conC`. -/
def S1 : Section := ⟨11, [conC]⟩

/-- Second lexicon candidate for `conC`. -/
def S2 : Section := ⟨12, [conC, conD]⟩

/-- Dictionary whose connectables for `conC` are `S1`, `S2`. -/
def dictL : Dictionary := ⟨fun _ => [], fun k => if k = conC then [S1, S2] else []⟩

/-- Frame with the open sections `secF` and `secG`. -/
def frameFG : Frame := ⟨[secF, secG], [], 0⟩

/-- Frame whose only open section is `secF`. -/
def frameF : Frame := ⟨[secF], [], 0⟩

/-- Frame whose only open section does not expose `conC`. -/
def frameA : Frame := ⟨[secA], [], 0⟩

/-- An atomspace without any link between sections. -/
def no_links : Section → Section → Atom → Nat := fun _ _ _ => 0

/-- Freshly constructed callback: at most one link per pair, no self connections. -/
def cbNew : SimpleCallback := SimpleCallback.new 10 10 10 10 1 false

/-- Call of `select` for `conC` from `secA` on `frameA`. -/
def callA : SelectCall := ⟨no_links, frameA, secA, conC⟩

/-- Call of `select` for `conC` from `secA` on `frameFG`. -/
def callFG : SelectCall := ⟨no_links, frameFG, secA, conC⟩

/-- Selects mixed with one nested frame pair and one nested odometer pair. -/
def opsW : List Op :=
  [Op.select callFG, Op.push_frame, Op.select callFG, Op.push_odometer, Op.select callA,
    Op.pop_odometer, Op.pop_frame, Op.select callA]

/-- Every candidate list held in a map is empty. -/
def AllEmpty (m : HandleSeqMap) : Prop := ∀ e ∈ m, e.2 = []

/-- No candidate list is recorded, neither in the current index nor in a saved one. -/
def NoRecorded (cb : SimpleCallback) : Prop :=
  AllEmpty cb._opensel._opensect ∧ ∀ os ∈ cb._opensel_stack, AllEmpty os._opensect

/-- First entry of anchor 0. -/
def rA1 : Section := ⟨21, [conP]⟩

/-- Second entry of anchor 0. -/
def rA2 : Section := ⟨22, [conP]⟩

/-- First entry of anchor 1. -/
def rB1 : Section := ⟨31, [conC]⟩

/-- Second entry of anchor 1. -/
def rB2 : Section := ⟨32, [conC]⟩

/-- Dictionary with two anchors (atoms 0 and 1) of two entries each. -/
def dictAB : Dictionary :=
  ⟨fun a => if a = 0 then [rA1, rA2] else if a = 1 then [rB1, rB2] else [], fun _ => []⟩

/-- The cursors left behind and the set returned by a call of `next_root`. -/
def cursors_and_set (r : SimpleCallback × HandleSet) : List Nat × HandleSet :=
  (r.1._root_iters, r.2)

/-! ## The odometer, digit by digit -/

/-- The cursor list after `_root_iters[i+1]++`, seen from digit `i + 1` on. -/
def bumpHead : List Nat → List Nat
  | [] => []
  | d :: ds => (d + 1) :: ds

/-- The loop of `next_root` as a recursion over the digits that are left:
the new cursors of these digits and the entries read, in order (`none` when
the last digit rolled over). -/
def odo_tail : Bool → List (List Section) → List Nat →
    Except Fault (List Nat × Option (List Section))
  | _, [], ds => .ok (ds, some [])
  | _, _ :: _, [] => .ok ([], some [])
  | first, sec :: ss, d :: ds =>
    if sec.length = d then
      if ss = [] then .ok (d :: ds, none)
      else
        match sec[0]? with
        | none => .error Fault.deref_past_end
        | some h =>
          match odo_tail false ss (bumpHead ds) with
          | .error e => .error e
          | .ok (ds1, r) => .ok (0 :: ds1, r.map (fun rs => h :: rs))
    else
      match sec[d]? with
      | none => .error Fault.deref_past_end
      | some h =>
        match odo_tail false ss ds with
        | .error e => .error e
        | .ok (ds1, r) => .ok ((if first then d + 1 else d) :: ds1, r.map (fun rs => h :: rs))

/-- Result of the loop of `next_root` rebuilt from `odo_tail`. -/
def loop_of_tail (front : List Nat) (starters : HandleSet) :
    Except Fault (List Nat × Option (List Section)) → Except Fault (List Nat × Option HandleSet)
  | .error e => .error e
  | .ok (ds, none) => .ok (front ++ ds, none)
  | .ok (ds, some rs) => .ok (front ++ ds, some (rs.foldl (fun acc h => insert h acc) starters))

/-- The callback with its root cursors replaced. -/
def at_iters (cb : SimpleCallback) (ds : List Nat) : SimpleCallback :=
  { cb with _root_iters := ds }

/-- Every cursor points at an entry of its candidate list. -/
def Valid (ss : List (List Section)) (ds : List Nat) : Prop :=
  List.Forall₂ (fun (sec : List Section) (d : Nat) => d < sec.length) ss ds

/-- The entries the cursors point at, one per candidate list. -/
def readAt : List (List Section) → List Nat → List Section
  | sec :: ss, d :: ds =>
    match sec[d]? with
    | some h => h :: readAt ss ds
    | none => readAt ss ds
  | _, _ => []

/-- Mixed-radix increment of the digits above digit 0; `none` when the last
digit rolls over. -/
def inc : List (List Section) → List Nat → Option (List Nat)
  | s :: ss, d :: ds =>
    if d + 1 < s.length then some ((d + 1) :: ds)
    else if ss = [] then none
    else (inc ss ds).map (fun ds1 => 0 :: ds1)
  | _, _ => none

/-- One increment of the upper digits from a valid position. -/
def IncStep (ss : List (List Section)) (a b : List Nat) : Prop :=
  Valid ss a ∧ inc ss a = some b

/-- The relation that `n` calls of `next_root` in a row, each returning a
non-empty set, lead from state `a` to state `b`. -/
def ReachN : Nat → SimpleCallback → SimpleCallback → Prop
  | 0, a, b => a = b
  | n + 1, a, b => ∃ a1 r, next_root a = .ok (a1, r) ∧ r ≠ ∅ ∧ ReachN n a1 b

/-- Some number of calls of `next_root`, each returning a non-empty set, lead
from `a` to `b`. -/
def Reach (a b : SimpleCallback) : Prop := ∃ n, ReachN n a b

/-- The limits do not stop `next_root` and the candidate lists are `ss`. -/
def Ready (cb : SimpleCallback) (ss : List (List Section)) : Prop :=
  cb._root_sections = ss ∧ ¬ cb.max_steps < cb._steps_taken ∧
    ¬ cb.max_solutions ≤ cb._num_solutions_found

/-! ## Runs of limit calls and lexicon draws -/

/-- A run of `step` calls, one per frame, with the booleans they return. -/
def step_seq : List Frame → SimpleCallback → SimpleCallback × List Bool
  | [], cb => (cb, [])
  | f :: rest, cb =>
    let r := step cb f
    let q := step_seq rest r.1
    (q.1, r.2 :: q.2)

/-- A run of `solution` calls, one per frame. -/
def solution_seq : List Frame → SimpleCallback → SimpleCallback
  | [], cb => cb
  | f :: rest, cb => solution_seq rest (solution cb f)

/-- Result of call number `n` (counted from zero) of `select_from_lexis` for
one connector in a row. -/
def select_from_lexis_nth (dict : Dictionary) (to_con : Connector) :
    Nat → SimpleCallback → SimpleCallback × Handle
  | 0, cb => select_from_lexis dict cb to_con
  | n + 1, cb => select_from_lexis_nth dict to_con n (select_from_lexis dict cb to_con).1

/-- What the lexicon hands out at phase `p` of its cycle over the candidates:
candidate `p`, or `Handle::UNDEFINED` once `p` is the number of candidates. -/
def lexis_phase (to_sects : List Section) (p : Nat) : Handle :=
  match to_sects[p]? with
  | some s => Handle.unique s
  | none => Handle.UNDEFINED

/-- Frame with four links and depth three. -/
def frameBig : Frame := ⟨[secF], [1, 2, 3, 4], 3⟩

/-- Callback with `max_steps = 2` and `max_solutions = 2`, other limits 10. -/
def cbSmall : SimpleCallback := SimpleCallback.new 2 2 10 10 1 false

/-- Dictionary in which anchor 0 has no entry and anchor 1 has two. -/
def dictE : Dictionary :=
  ⟨fun a => if a = 1 then [rB1, rB2] else [], fun _ => []⟩

/-- Frame that exceeds the size cap and the depth cap of `cbSmall`. -/
def frameOver : Frame := ⟨[], List.range 11, 11⟩

/-! ## Helper lemmas: maps -/

theorem mapGet_mapSet {V : Type} (m : List (Connector × V)) (k : Connector) (v d : V) :
    mapGet (mapSet m k v) k d = v := by
  simp [mapGet, mapSet, List.lookup]

theorem mapErase_cons {V : Type} (e : Connector × V) (m : List (Connector × V))
    (k : Connector) :
    mapErase (e :: m) k = if e.1 = k then mapErase m k else e :: mapErase m k := by
  unfold mapErase
  by_cases h : e.1 = k <;> simp [List.filter_cons, h]

theorem lookup_mapErase {V : Type} (m : List (Connector × V)) (k : Connector) :
    (mapErase m k).lookup k = none := by
  induction m with
  | nil => rfl
  | cons e m ih =>
    rw [mapErase_cons]
    by_cases h : e.1 = k
    · rw [if_pos h]; exact ih
    · rw [if_neg h]
      have h2 : (k == e.1) = false := by
        rw [beq_eq_false_iff_ne]; exact fun h3 => h h3.symm
      obtain ⟨a, b⟩ := e
      simp only [List.lookup, h2, ih]

theorem mapErase_of_lookup_none {V : Type} (m : List (Connector × V)) (k : Connector)
    (h : m.lookup k = none) : mapErase m k = m := by
  induction m with
  | nil => rfl
  | cons e m ih =>
    obtain ⟨a, b⟩ := e
    rw [mapErase_cons]
    by_cases h1 : a = k
    · subst h1
      simp [List.lookup] at h
    · have h2 : (k == a) = false := by
        rw [beq_eq_false_iff_ne]; exact fun h3 => h1 h3.symm
      simp only [List.lookup, h2] at h
      simp [h1, ih h]

/-! ## The odometer (C1, C2) -/

theorem getD_append_length {α : Type} (xs ys : List α) (y d : α) :
    (xs ++ y :: ys).getD xs.length d = y := by
  induction xs with
  | nil => rfl
  | cons x xs ih => simpa using ih

theorem set_append_length {α : Type} (xs ys : List α) (y z : α) :
    (xs ++ y :: ys).set xs.length z = xs ++ z :: ys := by
  induction xs with
  | nil => rfl
  | cons x xs ih => simp [ih]

theorem next_root_loop_eq (len : Nat) :
    ∀ (ss : List (List Section)) (ds : List Nat) (sfront : List (List Section))
      (front : List Nat) (starters : HandleSet),
      front.length = sfront.length → ds.length = ss.length →
      len = sfront.length + ss.length →
      next_root_loop (sfront ++ ss) len ss.length front.length (front ++ ds) starters =
        loop_of_tail front starters (odo_tail (decide (front.length = 0)) ss ds) := by
  intro ss
  induction ss with
  | nil =>
    intro ds sfront front starters _ hds _
    have : ds = [] := List.eq_nil_of_length_eq_zero hds
    subst this
    simp [next_root_loop, odo_tail, loop_of_tail]
  | cons sec ss ih =>
    intro ds sfront front starters hf hds hlen
    cases ds with
    | nil => simp at hds
    | cons d ds =>
      have hds1 : ds.length = ss.length := by simpa using hds
      have hsec : (sfront ++ sec :: ss).getD front.length [] = sec := by
        rw [hf]; exact getD_append_length _ _ _ _
      have hd : (front ++ d :: ds).getD front.length 0 = d := getD_append_length _ _ _ _
      have hsplit1 : sfront ++ sec :: ss = (sfront ++ [sec]) ++ ss := by simp
      have hlast : (len - 1 = front.length) ↔ ss = [] := by
        rw [hlen, hf]
        simp only [List.length_cons]
        constructor
        · intro h
          apply List.eq_nil_of_length_eq_zero
          omega
        · intro h
          subst h
          simp
      simp only [List.length_cons, next_root_loop, hsec, hd, odo_tail]
      by_cases hend : sec.length = d
      · simp only [hend, if_true]
        by_cases hss : ss = []
        · simp only [hss, if_true, hlast.mpr hss]
          rfl
        · simp only [hss, if_false, hlast.not.mpr hss]
          cases h0 : sec[0]? with
          | none => rfl
          | some h =>
            simp only
            cases ds with
            | nil =>
              exfalso
              apply hss
              apply List.eq_nil_of_length_eq_zero
              simp at hds1; omega
            | cons d1 ds1 =>
              have e1 : (front ++ d :: d1 :: ds1).set front.length 0
                  = (front ++ [0]) ++ d1 :: ds1 := by
                rw [set_append_length]; simp
              have e2 : ((front ++ [0]) ++ d1 :: ds1).getD (front.length + 1) 0 = d1 := by
                have := getD_append_length (front ++ [0]) ds1 d1 0
                simpa using this
              have e3 : ((front ++ [0]) ++ d1 :: ds1).set (front.length + 1) (d1 + 1)
                  = (front ++ [0]) ++ (d1 + 1) :: ds1 := by
                simp
              rw [e1, e2, e3, hsplit1]
              have := ih ((d1 + 1) :: ds1) (sfront ++ [sec]) (front ++ [0]) (insert h starters)
                (by simp [hf]) hds1 (by simp [hlen]; omega)
              simp only [List.length_append, List.length_singleton] at this
              rw [this]
              have hz : decide (front.length + 1 = 0) = false := by simp
              rw [hz]
              simp only [bumpHead]
              cases odo_tail false ss ((d1 + 1) :: ds1) with
              | error e => rfl
              | ok v =>
                obtain ⟨a, b⟩ := v
                cases b with
                | none => simp [loop_of_tail]
                | some rs => simp [loop_of_tail]
      · simp only [hend, if_false]
        by_cases hi : 0 = front.length
        · have hfn : front = [] := List.eq_nil_of_length_eq_zero hi.symm
          subst hfn
          have hsn : sfront = [] := List.eq_nil_of_length_eq_zero (by simpa using hf.symm)
          subst hsn
          simp only [List.length_nil, if_true, List.nil_append, decide_True]
          cases h0 : sec[d]? with
          | none => rfl
          | some h =>
            simp only
            have := ih ds [sec] [d + 1] (insert h starters) rfl hds1
              (by simp [hlen]; omega)
            simp only [List.length_singleton, List.singleton_append, Nat.zero_add] at this
            simp only [List.getD_cons_zero, List.set_cons_zero, Nat.zero_add]
            rw [this]
            have hz : decide (1 = 0) = false := by simp
            rw [hz]
            cases odo_tail false ss ds with
            | error e => rfl
            | ok v =>
              obtain ⟨a, b⟩ := v
              cases b with
              | none => simp [loop_of_tail]
              | some rs => simp [loop_of_tail]
        · simp only [hi, if_false]
          have hz : decide (front.length = 0) = false :=
            decide_eq_false (fun h => hi h.symm)
          rw [hz]
          cases h0 : sec[d]? with
          | none => rfl
          | some h =>
            simp only
            have e1 : front ++ d :: ds = (front ++ [d]) ++ ds := by simp
            rw [e1, hsplit1]
            have := ih ds (sfront ++ [sec]) (front ++ [d]) (insert h starters)
              (by simp [hf]) hds1 (by simp [hlen]; omega)
            simp only [List.length_append, List.length_singleton] at this
            rw [this]
            have hz2 : decide (front.length + 1 = 0) = false := by simp
            rw [hz2]
            cases odo_tail false ss ds with
            | error e => rfl
            | ok v =>
              obtain ⟨a, b⟩ := v
              cases b with
              | none => simp [loop_of_tail]
              | some rs => simp [loop_of_tail]

theorem foldl_insert_eq (rs : List Section) (st : HandleSet) :
    rs.foldl (fun acc h => insert h acc) st = st ∪ rs.toFinset := by
  induction rs generalizing st with
  | nil => simp
  | cons h rs ih =>
    simp only [List.foldl_cons, ih, List.toFinset_cons]
    ext x
    simp only [Finset.mem_union, Finset.mem_insert, List.mem_toFinset]
    tauto

theorem valid_length (ss : List (List Section)) (ds : List Nat) (h : Valid ss ds) :
    ds.length = ss.length := (List.Forall₂.length_eq h).symm

theorem next_root_eq (cb : SimpleCallback) (hlen : cb._root_iters.length = cb._root_sections.length)
    (hn : cb._root_iters ≠ [])
    (h1 : ¬ cb.max_steps < cb._steps_taken)
    (h2 : ¬ cb.max_solutions ≤ cb._num_solutions_found) :
    next_root cb =
      match odo_tail true cb._root_sections cb._root_iters with
      | .error e => .error e
      | .ok (ds, none) => .ok (at_iters cb ds, ∅)
      | .ok (ds, some rs) => .ok (at_iters cb ds, rs.toFinset) := by
  have hl0 : ¬ cb._root_iters.length = 0 := fun h => hn (List.eq_nil_of_length_eq_zero h)
  have := next_root_loop_eq cb._root_iters.length cb._root_sections cb._root_iters [] [] ∅
    rfl hlen (by simp [hlen])
  simp only [List.nil_append, List.length_nil, decide_True] at this
  unfold next_root
  simp only [hl0, h1, h2, if_false]
  rw [← hlen] at this
  rw [this]
  cases odo_tail true cb._root_sections cb._root_iters with
  | error e => rfl
  | ok v =>
    obtain ⟨a, b⟩ := v
    cases b with
    | none => rfl
    | some rs => simp [loop_of_tail, foldl_insert_eq, at_iters]

theorem odo_tail_valid (ss : List (List Section)) (ds : List Nat) (h : Valid ss ds) :
    odo_tail false ss ds = .ok (ds, some (readAt ss ds)) := by
  induction h with
  | nil => rfl
  | @cons s d ss ds hd _ ih =>
    have hne : ¬ s.length = d := by omega
    simp [odo_tail, hne, List.getElem?_eq_getElem hd, ih, readAt]

theorem odo_tail_first_valid (s : List Section) (ss : List (List Section)) (d : Nat)
    (ds : List Nat) (h : Valid (s :: ss) (d :: ds)) :
    odo_tail true (s :: ss) (d :: ds) = .ok ((d + 1) :: ds, some (readAt (s :: ss) (d :: ds))) := by
  cases h with
  | cons hd hv =>
    have hne : ¬ s.length = d := by omega
    simp [odo_tail, hne, List.getElem?_eq_getElem hd, odo_tail_valid ss ds hv, readAt]

theorem inc_valid (ss : List (List Section)) (ds ds1 : List Nat) (h : Valid ss ds)
    (hi : inc ss ds = some ds1) : Valid ss ds1 := by
  induction h generalizing ds1 with
  | nil => simp [inc] at hi
  | @cons s d ss ds hd hv ih =>
    simp only [inc] at hi
    split at hi
    · rename_i hlt
      cases hi
      exact List.Forall₂.cons hlt hv
    · split at hi
      · cases hi
      · cases hinc : inc ss ds with
        | none => simp [hinc] at hi
        | some v =>
          simp [hinc] at hi
          subst hi
          exact List.Forall₂.cons (by omega) (ih v hinc)

theorem odo_tail_bump (ss : List (List Section)) (ds : List Nat) (h : Valid ss ds)
    (hss : ss ≠ []) :
    (∃ ds1, inc ss ds = some ds1 ∧
      odo_tail false ss (bumpHead ds) = .ok (ds1, some (readAt ss ds1))) ∨
    (inc ss ds = none ∧ ∃ ds2, odo_tail false ss (bumpHead ds) = .ok (ds2, none)) := by
  induction h with
  | nil => exact absurd rfl hss
  | @cons s d ss ds hd hv ih =>
    have h0 : 0 < s.length := by omega
    by_cases hlt : d + 1 < s.length
    · left
      refine ⟨(d + 1) :: ds, by simp [inc, hlt], ?_⟩
      have hne : ¬ s.length = d + 1 := by omega
      show odo_tail false (s :: ss) ((d + 1) :: ds) = _
      simp [odo_tail, hne, List.getElem?_eq_getElem hlt, odo_tail_valid ss ds hv, readAt]
    · have heq : s.length = d + 1 := by omega
      by_cases hnil : ss = []
      · right
        subst hnil
        exact ⟨by simp [inc, hlt], (d + 1) :: ds, by
          show odo_tail false [s] ((d + 1) :: ds) = _
          simp [odo_tail, heq]⟩
      · rcases ih hnil with ⟨ds1, h1, h2⟩ | ⟨h1, ds2, h2⟩
        · left
          refine ⟨0 :: ds1, by simp [inc, hlt, hnil, h1], ?_⟩
          show odo_tail false (s :: ss) ((d + 1) :: ds) = _
          simp [odo_tail, heq, hnil, List.getElem?_eq_getElem h0, h2, readAt]
        · right
          refine ⟨by simp [inc, hlt, hnil, h1], 0 :: ds2, ?_⟩
          show odo_tail false (s :: ss) ((d + 1) :: ds) = _
          simp [odo_tail, heq, hnil, List.getElem?_eq_getElem h0, h2]

theorem readAt_cons_valid (s : List Section) (ss : List (List Section)) (d : Nat)
    (ds : List Nat) (hd : d < s.length) :
    readAt (s :: ss) (d :: ds) = s[d] :: readAt ss ds := by
  simp [readAt, List.getElem?_eq_getElem hd]

theorem readAt_toFinset_ne_empty (s : List Section) (ss : List (List Section)) (d : Nat)
    (ds : List Nat) (hd : d < s.length) :
    (readAt (s :: ss) (d :: ds)).toFinset ≠ ∅ := by
  rw [readAt_cons_valid s ss d ds hd]
  simp

theorem next_root_advance (cb : SimpleCallback) (s : List Section) (ss : List (List Section))
    (d : Nat) (ds : List Nat) (hr : Ready cb (s :: ss)) (hv : Valid (s :: ss) (d :: ds)) :
    next_root (at_iters cb (d :: ds)) =
      .ok (at_iters cb ((d + 1) :: ds), (readAt (s :: ss) (d :: ds)).toFinset) := by
  obtain ⟨hs, h1, h2⟩ := hr
  have hl := valid_length _ _ hv
  rw [next_root_eq (at_iters cb (d :: ds)) (by simp [at_iters, hs] at hl ⊢; exact hl)
    (by simp [at_iters]) h1 h2]
  have e : odo_tail true (at_iters cb (d :: ds))._root_sections
      (at_iters cb (d :: ds))._root_iters = odo_tail true (s :: ss) (d :: ds) := by
    simp [at_iters, hs]
  rw [e, odo_tail_first_valid s ss d ds hv]
  rfl

theorem next_root_carry (cb : SimpleCallback) (s : List Section) (ss : List (List Section))
    (ds ds1 : List Nat) (hr : Ready cb (s :: ss)) (hv : Valid ss ds) (hss : ss ≠ [])
    (h0 : 0 < s.length) (hinc : inc ss ds = some ds1) :
    next_root (at_iters cb (s.length :: ds)) =
      .ok (at_iters cb (0 :: ds1), (readAt (s :: ss) (0 :: ds1)).toFinset) := by
  obtain ⟨hs, h1, h2⟩ := hr
  have hl := valid_length _ _ hv
  rw [next_root_eq (at_iters cb (s.length :: ds)) (by simp [at_iters, hs, hl])
    (by simp [at_iters]) h1 h2]
  have e : odo_tail true (at_iters cb (s.length :: ds))._root_sections
      (at_iters cb (s.length :: ds))._root_iters = odo_tail true (s :: ss) (s.length :: ds) := by
    simp [at_iters, hs]
  rw [e]
  rcases odo_tail_bump ss ds hv hss with ⟨ds2, h3, h4⟩ | ⟨h3, _⟩
  · rw [hinc] at h3
    cases h3
    simp only [odo_tail, if_true, hss, if_false, List.getElem?_eq_getElem h0, h4,
      readAt_cons_valid s ss 0 ds1 h0]
    rfl
  · rw [hinc] at h3
    cases h3

theorem next_root_exhausted (cb : SimpleCallback) (s : List Section) (ss : List (List Section))
    (ds : List Nat) (hr : Ready cb (s :: ss)) (hv : Valid ss ds)
    (h0 : 0 < s.length) (hinc : ss ≠ [] → inc ss ds = none) :
    ∃ st, next_root (at_iters cb (s.length :: ds)) = .ok (st, ∅) := by
  obtain ⟨hs, h1, h2⟩ := hr
  have hl := valid_length _ _ hv
  rw [next_root_eq (at_iters cb (s.length :: ds)) (by simp [at_iters, hs, hl])
    (by simp [at_iters]) h1 h2]
  have e : odo_tail true (at_iters cb (s.length :: ds))._root_sections
      (at_iters cb (s.length :: ds))._root_iters = odo_tail true (s :: ss) (s.length :: ds) := by
    simp [at_iters, hs]
  rw [e]
  by_cases hss : ss = []
  · subst hss
    simp only [odo_tail, if_true]
    exact ⟨_, rfl⟩
  · rcases odo_tail_bump ss ds hv hss with ⟨ds2, h3, _⟩ | ⟨_, ds2, h4⟩
    · rw [hinc hss] at h3
      cases h3
    · simp only [odo_tail, if_true, hss, if_false, List.getElem?_eq_getElem h0, h4]
      exact ⟨_, rfl⟩

theorem reachN_trans (n m : Nat) (a b c : SimpleCallback) (h1 : ReachN n a b)
    (h2 : ReachN m b c) : ReachN (n + m) a c := by
  induction n generalizing a with
  | zero =>
    simp only [ReachN] at h1
    subst h1
    simpa using h2
  | succ n ih =>
    obtain ⟨a1, r, h3, h4, h5⟩ := h1
    have := ih a1 h5
    rw [Nat.add_right_comm]
    exact ⟨a1, r, h3, h4, this⟩

theorem reach_trans (a b c : SimpleCallback) (h1 : Reach a b) (h2 : Reach b c) : Reach a c := by
  obtain ⟨n, hn⟩ := h1
  obtain ⟨m, hm⟩ := h2
  exact ⟨n + m, reachN_trans n m a b c hn hm⟩

theorem reach_refl (a : SimpleCallback) : Reach a a := ⟨0, rfl⟩

theorem reach_step (a b : SimpleCallback) (r : HandleSet) (h : next_root a = .ok (b, r))
    (hr : r ≠ ∅) : Reach a b := ⟨1, b, r, h, hr, rfl⟩

theorem reachN_nth (n : Nat) (a b : SimpleCallback) (h : ReachN n a b) :
    next_root_nth n a = next_root b := by
  induction n generalizing a with
  | zero =>
    simp only [ReachN] at h
    subst h
    rfl
  | succ n ih =>
    obtain ⟨a1, r, h3, _, h5⟩ := h
    simp only [next_root_nth, h3]
    exact ih a1 h5

theorem reachN_before (n : Nat) (a b : SimpleCallback) (h : ReachN n a b) :
    ∀ i < n, ∃ st r, next_root_nth i a = .ok (st, r) ∧ r ≠ ∅ := by
  induction n generalizing a with
  | zero => intro i hi; omega
  | succ n ih =>
    obtain ⟨a1, r, h3, h4, h5⟩ := h
    intro i hi
    cases i with
    | zero => exact ⟨a1, r, by simp only [next_root_nth, h3], h4⟩
    | succ i =>
      obtain ⟨st, r2, h6, h7⟩ := ih a1 h5 i (by omega)
      exact ⟨st, r2, by simp only [next_root_nth, h3]; exact h6, h7⟩

theorem reach_count (cb : SimpleCallback) (s : List Section) (ss : List (List Section))
    (ds : List Nat) (hr : Ready cb (s :: ss)) (hv : Valid ss ds) :
    ∀ (k d : Nat), d + k ≤ s.length →
      Reach (at_iters cb (d :: ds)) (at_iters cb ((d + k) :: ds)) := by
  intro k
  induction k with
  | zero => intro d _; exact reach_refl _
  | succ k ih =>
    intro d hle
    have hd : d < s.length := by omega
    have hstep := next_root_advance cb s ss d ds hr (List.Forall₂.cons hd hv)
    have h1 := reach_step _ _ _ hstep (readAt_toFinset_ne_empty s ss d ds hd)
    have h2 := ih (d + 1) (by omega)
    have e : d + 1 + k = d + (k + 1) := by omega
    rw [e] at h2
    exact reach_trans _ _ _ h1 h2

theorem reach_carry (cb : SimpleCallback) (s : List Section) (ss : List (List Section))
    (ds ds1 : List Nat) (hr : Ready cb (s :: ss)) (h0 : 0 < s.length)
    (hstep : IncStep ss ds ds1) :
    Reach (at_iters cb (0 :: ds)) (at_iters cb (0 :: ds1)) := by
  obtain ⟨hv, hinc⟩ := hstep
  have hss : ss ≠ [] := by
    intro h
    subst h
    cases hv
    simp [inc] at hinc
  have h1 := reach_count cb s ss ds hr hv s.length 0 (by omega)
  rw [Nat.zero_add] at h1
  have h2 := next_root_carry cb s ss ds ds1 hr hv hss h0 hinc
  exact reach_trans _ _ _ h1 (reach_step _ _ _ h2 (readAt_toFinset_ne_empty s ss 0 ds1 h0))

theorem reach_upper (cb : SimpleCallback) (s : List Section) (ss : List (List Section))
    (a b : List Nat) (hr : Ready cb (s :: ss)) (h0 : 0 < s.length)
    (h : Relation.ReflTransGen (IncStep ss) a b) :
    Reach (at_iters cb (0 :: a)) (at_iters cb (0 :: b)) := by
  induction h with
  | refl => exact reach_refl _
  | tail _ hstep ih => exact reach_trans _ _ _ ih (reach_carry cb s ss _ _ hr h0 hstep)

theorem upper_count (s : List Section) (ss : List (List Section)) (a : List Nat)
    (hv : Valid ss a) :
    ∀ (k d : Nat), d + k < s.length →
      Relation.ReflTransGen (IncStep (s :: ss)) (d :: a) ((d + k) :: a) := by
  intro k
  induction k with
  | zero => intro d _; exact Relation.ReflTransGen.refl
  | succ k ih =>
    intro d hlt
    have h1 : IncStep (s :: ss) (d :: a) ((d + 1) :: a) :=
      ⟨List.Forall₂.cons (by omega) hv, by simp only [inc]; rw [if_pos (by omega)]⟩
    have h2 := ih (d + 1) (by omega)
    have e : d + 1 + k = d + (k + 1) := by omega
    rw [e] at h2
    exact Relation.ReflTransGen.head h1 h2

theorem upper_lift (s : List Section) (ss : List (List Section)) (a b : List Nat)
    (h0 : 0 < s.length) (h : Relation.ReflTransGen (IncStep ss) a b) :
    Relation.ReflTransGen (IncStep (s :: ss)) (0 :: a) (0 :: b) := by
  induction h with
  | refl => exact Relation.ReflTransGen.refl
  | @tail c b _ hstep ih =>
    obtain ⟨hv, hinc⟩ := hstep
    have hss : ss ≠ [] := by
      intro h
      subst h
      cases hv
      simp [inc] at hinc
    have h1 := upper_count s ss c hv (s.length - 1) 0 (by omega)
    rw [Nat.zero_add] at h1
    have h2 : IncStep (s :: ss) ((s.length - 1) :: c) (0 :: b) := by
      refine ⟨List.Forall₂.cons (by omega) hv, ?_⟩
      have hn : ¬ s.length - 1 + 1 < s.length := by omega
      simp only [inc, hn, hss, if_false, hinc, Option.map_some']
    exact (ih.trans h1).tail h2

theorem upper_reach (ss : List (List Section)) (p : List Nat) (hv : Valid ss p) :
    Relation.ReflTransGen (IncStep ss) (ss.map (fun _ => 0)) p := by
  induction hv with
  | nil => exact Relation.ReflTransGen.refl
  | @cons s d ss ds hd hv ih =>
    have h1 := upper_lift s ss _ _ (by omega) ih
    have h2 := upper_count s ss ds hv d 0 (by omega)
    rw [Nat.zero_add] at h2
    exact h1.trans h2

theorem valid_last (ss : List (List Section)) (hne : ∀ s ∈ ss, s ≠ []) :
    Valid ss (ss.map (fun s => s.length - 1)) := by
  induction ss with
  | nil => exact List.Forall₂.nil
  | cons s ss ih =>
    have h0 : 0 < s.length := List.length_pos.mpr (hne s (by simp))
    exact List.Forall₂.cons (by show s.length - 1 < s.length; omega)
      (ih (fun t ht => hne t (by simp [ht])))

theorem inc_last (ss : List (List Section)) (hne : ∀ s ∈ ss, s ≠ []) :
    inc ss (ss.map (fun s => s.length - 1)) = none := by
  induction ss with
  | nil => rfl
  | cons s ss ih =>
    have h0 : 0 < s.length := List.length_pos.mpr (hne s (by simp))
    have hn : ¬ s.length - 1 + 1 < s.length := by omega
    simp only [List.map_cons, inc, hn, if_false, ih (fun t ht => hne t (by simp [ht]))]
    split <;> rfl

theorem positions_of_choice (ss : List (List Section)) (choice : List Section)
    (h : List.Forall₂ (fun (c : Section) (sec : List Section) => c ∈ sec) choice ss) :
    ∃ p, Valid ss p ∧ readAt ss p = choice := by
  induction h with
  | nil => exact ⟨[], List.Forall₂.nil, rfl⟩
  | @cons c sec choice ss hc _ ih =>
    obtain ⟨p, hp1, hp2⟩ := ih
    obtain ⟨n, hn, hget⟩ := List.getElem_of_mem hc
    refine ⟨n :: p, List.Forall₂.cons hn hp1, ?_⟩
    rw [readAt_cons_valid sec ss n p hn, hget, hp2]

theorem root_set_loop_roots (dict : Dictionary) (roots : List Atom) (cb : SimpleCallback) :
    root_set_loop dict roots cb =
      { cb with
        _root_sections := cb._root_sections ++ roots.map dict.entries,
        _root_iters := cb._root_iters ++ roots.map (fun _ => 0) } := by
  induction roots generalizing cb with
  | nil => simp [root_set_loop]
  | cons r rest ih =>
    simp only [root_set_loop]
    rw [ih]
    simp

theorem root_set_ready (dict : Dictionary) (cb : SimpleCallback) (roots : List Atom)
    (hsol : 0 < cb.max_solutions) :
    Ready (root_set dict cb roots) (roots.map dict.entries) ∧
    root_set dict cb roots =
      at_iters (root_set dict cb roots) ((roots.map dict.entries).map (fun _ => 0)) := by
  unfold root_set
  rw [root_set_loop_roots]
  refine ⟨⟨by simp [clear], by simp [clear], by simp [clear]; omega⟩, ?_⟩
  simp [clear, at_iters, Function.comp_def]

/-- C1: after `root_set` on at least one anchor, every anchor with a non-empty
entry list and the solution limit not reached, `next_root` returns non-empty
sets up to a first empty result (call number `T`), and every combination of one
entry per anchor is returned by some call before that one. -/
theorem C1_odometer_exhaustive (dict : Dictionary) (cb : SimpleCallback) (roots : List Atom)
    (hroots : roots ≠ []) (hne : ∀ a ∈ roots, dict.entries a ≠ [])
    (hsol : 0 < cb.max_solutions) :
    ∃ T, (∃ st, next_root_nth T (root_set dict cb roots) = .ok (st, ∅)) ∧
      (∀ i < T, ∃ st r, next_root_nth i (root_set dict cb roots) = .ok (st, r) ∧ r ≠ ∅) ∧
      ∀ choice : List Section,
        List.Forall₂ (fun (c : Section) (a : Atom) => c ∈ dict.entries a) choice roots →
        ∃ j, j < T ∧ ∃ st, next_root_nth j (root_set dict cb roots) = .ok (st, choice.toFinset) := by
  obtain ⟨hready, hstart⟩ := root_set_ready dict cb roots hsol
  generalize root_set dict cb roots = cb0 at hready hstart ⊢
  cases roots with
  | nil => exact absurd rfl hroots
  | cons a rest =>
    simp only [List.map_cons] at hready hstart
    generalize hs : dict.entries a = s at hready hstart
    generalize hss : rest.map dict.entries = ss at hready hstart
    have h0 : 0 < s.length := by
      rw [← hs]; exact List.length_pos.mpr (hne a (by simp))
    have hne2 : ∀ t ∈ ss, t ≠ [] := by
      intro t ht
      rw [← hss] at ht
      obtain ⟨b, hb, rfl⟩ := List.mem_map.mp ht
      exact hne b (by simp [hb])
    -- every valid position is reached by non-empty calls from the start
    have hreach : ∀ (d : Nat) (p : List Nat), d ≤ s.length → Valid ss p →
        Reach cb0 (at_iters cb0 (d :: p)) := by
      intro d p hd hp
      have h1 := reach_upper cb0 s ss _ p hready h0 (upper_reach ss p hp)
      have h2 := reach_count cb0 s ss p hready hp d 0 (by omega)
      rw [Nat.zero_add] at h2
      rw [← hstart] at h1
      exact reach_trans _ _ _ h1 h2
    obtain ⟨T, hT⟩ := hreach s.length _ (Nat.le_refl _) (valid_last ss hne2)
    obtain ⟨stT, hend⟩ := next_root_exhausted cb0 s ss _ hready (valid_last ss hne2) h0
      (fun _ => inc_last ss hne2)
    have hTnth := reachN_nth T _ _ hT
    rw [hend] at hTnth
    refine ⟨T, ⟨stT, hTnth⟩, reachN_before T _ _ hT, ?_⟩
    intro choice hchoice
    have hch : List.Forall₂ (fun (c : Section) (sec : List Section) => c ∈ sec) choice
        (s :: ss) := by
      rw [← hs, ← hss, ← List.map_cons]
      rw [List.forall₂_map_right_iff]
      exact hchoice
    obtain ⟨p, hp1, hp2⟩ := positions_of_choice (s :: ss) choice hch
    cases hp1 with
    | @cons _ d _ p hd hp =>
      obtain ⟨j, hj⟩ := hreach d p (by omega) hp
      have hjnth := reachN_nth j _ _ hj
      rw [next_root_advance cb0 s ss d p hready (List.Forall₂.cons hd hp), hp2] at hjnth
      have hnonempty : choice.toFinset ≠ ∅ := by
        rw [← hp2]; exact readAt_toFinset_ne_empty s ss d p hd
      refine ⟨j, ?_, _, hjnth⟩
      rcases Nat.lt_trichotomy j T with hlt | heq | hgt
      · exact hlt
      · exfalso
        rw [heq, hTnth] at hjnth
        exact hnonempty (Prod.mk.inj (Except.ok.inj hjnth)).2.symm
      · exfalso
        obtain ⟨st, r, h3, h4⟩ := reachN_before j _ _ hj T hgt
        rw [hTnth] at h3
        cases h3
        exact h4 rfl

theorem C1_odometer_exhaustive_witness :
    ([0, 1] ≠ ([] : List Atom) ∧ (∀ a ∈ [0, 1], dictAB.entries a ≠ []) ∧
      0 < cbNew.max_solutions) ∧
    ∃ T, (∃ st, next_root_nth T (root_set dictAB cbNew [0, 1]) = .ok (st, ∅)) ∧
      (∀ i < T, ∃ st r, next_root_nth i (root_set dictAB cbNew [0, 1]) = .ok (st, r) ∧ r ≠ ∅) ∧
      ∀ choice : List Section,
        List.Forall₂ (fun (c : Section) (a : Atom) => c ∈ dictAB.entries a) choice [0, 1] →
        ∃ j, j < T ∧
          ∃ st, next_root_nth j (root_set dictAB cbNew [0, 1]) = .ok (st, choice.toFinset) :=
  ⟨⟨by decide, by decide, by decide⟩,
    C1_odometer_exhaustive dictAB cbNew [0, 1] (by decide) (by decide) (by decide)⟩

/-- C2, evaluated: two anchors with two entries each. The six first calls of
`next_root` return five non-empty sets and then the empty set, not four: after
the carry of digit 0 (third call) the cursors are `[0, 1]`, so the fourth call
reads the same positions and returns `{rA1, rB2}` a second time. -/
theorem C2_combination_returned_twice :
    (List.range 6).map (fun n =>
        (next_root_nth n (root_set dictAB cbNew [0, 1])).map cursors_and_set) =
      [.ok ([1, 0], {rA1, rB1}), .ok ([2, 0], {rA2, rB1}), .ok ([0, 1], {rA1, rB2}),
        .ok ([1, 1], {rA1, rB2}), .ok ([2, 1], {rA2, rB2}), .ok ([0, 2], ∅)] := by
  decide

/-! ## Single anchor (C3) -/

theorem next_root_single_lt (cb : SimpleCallback) (l : List Section) (j : Nat)
    (hs : cb._root_sections = [l]) (hi : cb._root_iters = [j])
    (h1 : ¬ cb.max_steps < cb._steps_taken)
    (h2 : ¬ cb.max_solutions ≤ cb._num_solutions_found) (hj : j < l.length) :
    next_root cb = .ok ({ cb with _root_iters := [j + 1] }, {l[j]}) := by
  have hne : ¬ l.length = j := by omega
  simp [next_root, hs, hi, h1, h2, next_root_loop, hne, hj]

theorem next_root_single_end (cb : SimpleCallback) (l : List Section)
    (hs : cb._root_sections = [l]) (hi : cb._root_iters = [l.length])
    (h1 : ¬ cb.max_steps < cb._steps_taken)
    (h2 : ¬ cb.max_solutions ≤ cb._num_solutions_found) :
    next_root cb = .ok (cb, ∅) := by
  cases cb
  simp only at hs hi h1 h2
  subst hs hi
  simp [next_root, h1, h2, next_root_loop]

theorem next_root_nth_single (l : List Section) :
    ∀ (n j : Nat) (cb : SimpleCallback), cb._root_sections = [l] → cb._root_iters = [j] →
      ¬ cb.max_steps < cb._steps_taken → ¬ cb.max_solutions ≤ cb._num_solutions_found →
      j + n ≤ l.length →
      ∃ cb1, next_root_nth n cb = .ok (cb1, (l[j + n]?).elim ∅ (fun p => {p})) := by
  intro n
  induction n with
  | zero =>
    intro j cb hs hi h1 h2 hle
    rcases Nat.lt_or_ge j l.length with hj | hj
    · refine ⟨{ cb with _root_iters := [j + 1] }, ?_⟩
      simp only [next_root_nth, Nat.add_zero]
      rw [next_root_single_lt cb l j hs hi h1 h2 hj, List.getElem?_eq_getElem hj]
      rfl
    · have hj2 : j = l.length := by omega
      subst hj2
      refine ⟨cb, ?_⟩
      simp only [next_root_nth, Nat.add_zero]
      rw [next_root_single_end cb l hs hi h1 h2]
      simp
  | succ n ih =>
    intro j cb hs hi h1 h2 hle
    have hj : j < l.length := by omega
    simp only [next_root_nth]
    rw [next_root_single_lt cb l j hs hi h1 h2 hj]
    have := ih (j + 1) { cb with _root_iters := [j + 1] } hs rfl h1 h2 (by omega)
    have e : j + 1 + n = j + (n + 1) := by omega
    rw [e] at this
    exact this

/-- C3: with a single anchor whose entry list is `dict.entries A`, and the
solution limit not reached, call number `i` of `next_root` after `root_set`
returns the singleton of entry `i`, in Dictionary order, and the call after
the last entry returns the empty set. -/
theorem C3_single_anchor_enumeration (dict : Dictionary) (cb : SimpleCallback) (A : Atom)
    (hsol : 0 < cb.max_solutions) :
    (∀ (i : Nat) (h : i < (dict.entries A).length),
      ∃ cb1, next_root_nth i (root_set dict cb [A]) = .ok (cb1, {(dict.entries A)[i]})) ∧
    ∃ cb1, next_root_nth (dict.entries A).length (root_set dict cb [A]) = .ok (cb1, ∅) := by
  have key := fun n hn => next_root_nth_single (dict.entries A) n 0 (root_set dict cb [A])
    (by simp [root_set, root_set_loop, clear]) (by simp [root_set, root_set_loop, clear])
    (by simp [root_set, root_set_loop, clear])
    (by simp [root_set, root_set_loop, clear]; omega) hn
  constructor
  · intro i h
    obtain ⟨cb1, h1⟩ := key i (by omega)
    refine ⟨cb1, ?_⟩
    rw [h1, Nat.zero_add, List.getElem?_eq_getElem h]
    rfl
  · obtain ⟨cb1, h1⟩ := key (dict.entries A).length (by omega)
    refine ⟨cb1, ?_⟩
    rw [h1]
    simp

theorem C3_single_anchor_enumeration_witness :
    0 < cbNew.max_solutions ∧
    (∃ cb1, next_root_nth 0 (root_set dictA cbNew [0]) = .ok (cb1, {P1})) ∧
    (∃ cb1, next_root_nth 1 (root_set dictA cbNew [0]) = .ok (cb1, {P2})) ∧
    ∃ cb1, next_root_nth 2 (root_set dictA cbNew [0]) = .ok (cb1, ∅) :=
  ⟨by decide, (C3_single_anchor_enumeration dictA cbNew 0 (by decide)).1 0 (by decide),
    (C3_single_anchor_enumeration dictA cbNew 0 (by decide)).1 1 (by decide),
    (C3_single_anchor_enumeration dictA cbNew 0 (by decide)).2⟩

/-! ## Lexicon round robin (C4) -/

theorem scan_conseq_no_match (m : Nat) (nl : Section → Section → Atom → Nat)
    (fm os : Section) (c : Connector) (cons : List Connector) (acc : List Section)
    (h : c ∉ cons) : scan_conseq m nl fm os c cons acc = acc := by
  induction cons generalizing acc with
  | nil => rfl
  | cons x rest ih =>
    have hx : ¬ x = c := fun e => h (by simp [e])
    have hr : c ∉ rest := fun e => h (by simp [e])
    simp only [scan_conseq, hx, if_false]
    exact ih acc hr

theorem scan_open_no_match (m : Nat) (nl : Section → Section → Atom → Nat)
    (fm : Section) (c : Connector) (secs : List Section) (acc : List Section)
    (h : ∀ s ∈ secs, c ∉ s.conseq) : scan_open m nl fm c secs acc = acc := by
  induction secs generalizing acc with
  | nil => rfl
  | cons x rest ih =>
    simp only [scan_open]
    rw [scan_conseq_no_match m nl fm x c x.conseq acc (h x (by simp))]
    exact ih acc (fun s hs => h s (by simp [hs]))

theorem select_from_open_no_match (nl : Section → Section → Atom → Nat)
    (cb : SimpleCallback) (frame : Frame) (fm : Section) (c : Connector)
    (hfit : mapGet cb._opensel._openit c 0 = 0)
    (h : ∀ s ∈ frame._open_sections, c ∉ s.conseq) :
    select_from_open nl cb frame fm c = (cb, Handle.UNDEFINED) := by
  simp [select_from_open, hfit, scan_open_no_match _ _ _ _ _ _ h]

theorem select_from_lexis_lt (dict : Dictionary) (cb : SimpleCallback) (c : Connector)
    (j : Nat) (hj : mapGet cb._lexlit c 0 = j) (hlt : j < (dict.connectables c).length)
    (hr : (dict.connectables c).length < UINT_RANGE) :
    select_from_lexis dict cb c =
      (with_lexlit cb (mapSet cb._lexlit c (j + 1)),
        Handle.unique ((dict.connectables c)[j])) := by
  unfold select_from_lexis
  simp only [hj]
  by_cases h0 : 0 = j
  · subst h0
    simp [List.getElem?_eq_getElem hlt]
  · have hmod : (j + 1) % UINT_RANGE = j + 1 := Nat.mod_eq_of_lt (by omega)
    simp [h0, List.getElem?_eq_getElem hlt, hmod, Nat.not_le.mpr hlt]

theorem select_from_lexis_end (dict : Dictionary) (cb : SimpleCallback) (c : Connector)
    (hj : mapGet cb._lexlit c 0 = (dict.connectables c).length) :
    (select_from_lexis dict cb c).2 = Handle.UNDEFINED := by
  unfold select_from_lexis
  simp only [hj]
  by_cases h0 : 0 = (dict.connectables c).length
  · have : (dict.connectables c)[0]? = none := by
      rw [List.getElem?_eq_none_iff]; omega
    simp [h0, this]
  · simp [h0]

theorem select_seq_lexis (dict : Dictionary) (c : Connector)
    (hr : (dict.connectables c).length < UINT_RANGE) :
    ∀ (calls : List SelectCall) (j : Nat) (cb : SimpleCallback),
      mapGet cb._lexlit c 0 = j → mapGet cb._opensel._openit c 0 = 0 →
      mapHas cb._opensel._opensect c = false →
      j ≤ (dict.connectables c).length →
      j + calls.length = (dict.connectables c).length + 1 →
      (∀ a ∈ calls, a.to_con = c ∧ ∀ s ∈ a.frame._open_sections, c ∉ s.conseq) →
      (select_seq dict calls cb).2 =
        ((dict.connectables c).drop j).map Handle.unique ++ [Handle.UNDEFINED] := by
  intro calls
  induction calls with
  | nil =>
    intro j cb _ _ _ hle hlen _
    simp at hlen
    omega
  | cons a rest ih =>
    intro j cb hj hfit hhas hle hlen hall
    obtain ⟨hc, hfr⟩ := hall a (by simp)
    have hopen := select_from_open_no_match a.num_links cb a.frame a.fm_sect c hfit hfr
    have hsel : select dict a.num_links cb a.frame a.fm_sect a.to_con =
        select_from_lexis dict cb c := by
      rw [hc]
      simp [select, hopen, hhas]
    simp only [select_seq, hsel]
    rcases Nat.lt_or_ge j (dict.connectables c).length with hlt | hge
    · rw [select_from_lexis_lt dict cb c j hj hlt hr]
      simp only
      rw [ih (j + 1) (with_lexlit cb (mapSet cb._lexlit c (j + 1)))
        (mapGet_mapSet _ _ _ _) hfit hhas (by omega)
        (by simp at hlen ⊢; omega) (fun b hb => hall b (by simp [hb]))]
      rw [List.drop_eq_getElem_cons hlt]
      rfl
    · have hjk : j = (dict.connectables c).length := by omega
      have hrest : rest = [] := by
        apply List.eq_nil_of_length_eq_zero
        simp at hlen
        omega
      subst hrest
      rw [hjk] at hj
      simp [select_seq, select_from_lexis_end dict cb c hj, hjk]

/-- C4: for a connector `c` whose connectables list fits an `unsigned` cursor,
starting with no lexicon cursor and an empty open-selection index, `k + 1`
consecutive `select` calls for `c` on frames none of whose open sections
exposes `c` return fresh instances of the `k` connectables in Dictionary
order, each once, and then `Handle::UNDEFINED`. -/
theorem C4_round_robin_lexis (dict : Dictionary) (cb : SimpleCallback) (c : Connector)
    (calls : List SelectCall)
    (hlex : cb._lexlit = []) (hopen : cb._opensel = { _opensect := [], _openit := [] })
    (hrange : (dict.connectables c).length < UINT_RANGE)
    (hlen : calls.length = (dict.connectables c).length + 1)
    (hcalls : ∀ a ∈ calls, a.to_con = c ∧ ∀ s ∈ a.frame._open_sections, c ∉ s.conseq) :
    (select_seq dict calls cb).2 =
      (dict.connectables c).map Handle.unique ++ [Handle.UNDEFINED] := by
  have := select_seq_lexis dict c hrange calls 0 cb (by rw [hlex]; rfl) (by rw [hopen]; rfl)
    (by rw [hopen]; rfl) (by omega) (by omega) hcalls
  simpa using this

theorem C4_round_robin_lexis_witness :
    (cbNew._lexlit = [] ∧ cbNew._opensel = { _opensect := [], _openit := [] } ∧
      (dictL.connectables conC).length < UINT_RANGE ∧
      [callA, callA, callA].length = (dictL.connectables conC).length + 1 ∧
      ∀ a ∈ [callA, callA, callA],
        a.to_con = conC ∧ ∀ s ∈ a.frame._open_sections, conC ∉ s.conseq) ∧
    (select_seq dictL [callA, callA, callA] cbNew).2 =
      [Handle.unique S1, Handle.unique S2, Handle.UNDEFINED] :=
  ⟨⟨rfl, rfl, by decide, rfl, by decide⟩,
    C4_round_robin_lexis dictL cbNew conC [callA, callA, callA] rfl rfl (by decide) rfl
      (by decide)⟩

/-! ## Open candidates (C5, C6) -/

/-- C5, evaluated: the first scan for `conC` collects `[secF, secG]`, the first
`select_from_open` returns `secF`, but no candidate list is stored, so the
second call already returns `Handle::UNDEFINED` instead of `secG`. -/
theorem C5_open_candidates_not_recorded :
    scan_open cbNew.max_pair_links no_links secA conC frameFG._open_sections [] = [secF, secG] ∧
    (select_from_open_seq no_links frameFG secA conC 3 cbNew).2 =
      [Handle.sect secF, Handle.UNDEFINED, Handle.UNDEFINED] ∧
    mapHas (select_from_open no_links cbNew frameFG secA conC).1._opensel._opensect conC = false ∧
    mapGet (select_from_open no_links cbNew frameFG secA conC).1._opensel._openit conC 0 = 1 := by
  decide

/-- C6, evaluated: `secF` is the only open candidate and is the from-section, so
`select_from_open` sets up the cursor for `conC` and returns nothing; `select`
still draws `S1` from the lexicon and moves the lexicon cursor. -/
theorem C6_lexicon_drawn_with_cursor_established :
    (select_from_open no_links cbNew frameF secF conC).2 = Handle.UNDEFINED ∧
    mapHas (select_from_open no_links cbNew frameF secF conC).1._opensel._openit conC = true ∧
    (select dictL no_links cbNew frameF secF conC).2 = Handle.unique S1 ∧
    (select dictL no_links cbNew frameF secF conC).1._lexlit = [(conC, 1)] := by
  decide

/-! ## Self pairing and the pair-link cap (C7, C8) -/

theorem check_self_loop_result (ts : List Section) (fm : Section) (c : Connector) :
    ∀ (fuel fit : Nat) (it : HandleUCounter),
      (check_self_loop ts fm c fuel fit it).2 = Handle.UNDEFINED ∨
      ∃ s, (check_self_loop ts fm c fuel fit it).2 = Handle.sect s ∧ s ∈ ts ∧ s ≠ fm := by
  intro fuel
  induction fuel with
  | zero => intro fit it; exact Or.inl rfl
  | succ n ih =>
    intro fit it
    simp only [check_self_loop]
    split
    · exact Or.inl rfl
    · rename_i tosect heq
      split
      · rename_i hne
        exact Or.inr ⟨tosect, rfl, List.getElem?_mem heq, hne⟩
      · split
        · exact Or.inl rfl
        · exact ih _ _

theorem check_self_state (cb : SimpleCallback) (ts : List Section) (fm : Section)
    (c : Connector) (fit : Nat) :
    ∃ it, (check_self cb ts fm c fit).1 = with_openit cb it := by
  unfold check_self
  split
  · exact ⟨cb._opensel._openit, rfl⟩
  · split
    · split <;> exact ⟨_, rfl⟩
    · exact ⟨_, rfl⟩

theorem check_self_result (cb : SimpleCallback) (ts : List Section) (fm : Section)
    (c : Connector) (fit : Nat) :
    (check_self cb ts fm c fit).2 = Handle.UNDEFINED ∨
    ∃ s, (check_self cb ts fm c fit).2 = Handle.sect s ∧ s ∈ ts ∧
      (cb.allow_self_connections = false → s ≠ fm) := by
  unfold check_self
  split
  · exact Or.inl rfl
  · split
    · rename_i hallow
      split
      · exact Or.inl rfl
      · rename_i s heq
        exact Or.inr ⟨s, rfl, List.getElem?_mem heq, fun h => by simp [hallow] at h⟩
    · rcases check_self_loop_result ts fm c (ts.length - fit) fit
        (mapSet cb._opensel._openit c ((mapGet cb._opensel._openit c 0 + 1) % UINT_RANGE))
        with h | ⟨s, h1, h2, h3⟩
      · exact Or.inl h
      · exact Or.inr ⟨s, h1, h2, fun _ => h3⟩

theorem scan_conseq_mem (m : Nat) (nl : Section → Section → Atom → Nat)
    (fm os : Section) (c : Connector) (cons : List Connector) (acc : List Section)
    (s : Section) (h : s ∈ scan_conseq m nl fm os c cons acc) :
    s ∈ acc ∨ (s = os ∧ c ∈ cons ∧ nl fm os c.linkty < m) := by
  induction cons generalizing acc with
  | nil => exact Or.inl h
  | cons x rest ih =>
    simp only [scan_conseq] at h
    split at h
    · rename_i hx
      split at h
      · rcases ih acc h with h1 | ⟨h1, h2, h3⟩
        · exact Or.inl h1
        · exact Or.inr ⟨h1, by simp [h2], h3⟩
      · rename_i hlt
        rcases ih _ h with h1 | ⟨h1, h2, h3⟩
        · rcases List.mem_append.mp h1 with h4 | h4
          · exact Or.inl h4
          · refine Or.inr ⟨by simpa using h4, by simp [hx], by omega⟩
        · exact Or.inr ⟨h1, by simp [h2], h3⟩
    · rcases ih acc h with h1 | ⟨h1, h2, h3⟩
      · exact Or.inl h1
      · exact Or.inr ⟨h1, by simp [h2], h3⟩

theorem scan_open_mem (m : Nat) (nl : Section → Section → Atom → Nat)
    (fm : Section) (c : Connector) (secs : List Section) (acc : List Section)
    (s : Section) (h : s ∈ scan_open m nl fm c secs acc) :
    s ∈ acc ∨ (s ∈ secs ∧ c ∈ s.conseq ∧ nl fm s c.linkty < m) := by
  induction secs generalizing acc with
  | nil => exact Or.inl h
  | cons x rest ih =>
    simp only [scan_open] at h
    rcases ih _ h with h1 | ⟨h1, h2, h3⟩
    · rcases scan_conseq_mem m nl fm x c x.conseq acc s h1 with h4 | ⟨h4, h5, h6⟩
      · exact Or.inl h4
      · subst h4
        exact Or.inr ⟨by simp, h5, h6⟩
    · exact Or.inr ⟨by simp [h1], h2, h3⟩

theorem mapGet_of_allEmpty (m : HandleSeqMap) (c : Connector) (h : AllEmpty m) :
    mapGet m c [] = [] := by
  unfold mapGet
  cases hl : m.lookup c with
  | none => rfl
  | some v =>
    have hm : (c, v) ∈ m := by
      clear h
      induction m with
      | nil => simp [List.lookup] at hl
      | cons e m ih =>
        obtain ⟨a, b⟩ := e
        by_cases hca : c = a
        · subst hca
          simp [List.lookup] at hl
          simp [hl]
        · have h2 : (c == a) = false := by rw [beq_eq_false_iff_ne]; exact hca
          simp only [List.lookup, h2] at hl
          exact List.mem_cons_of_mem _ (ih hl)
    simpa using h _ hm

theorem allEmpty_mapTouch (m : HandleSeqMap) (c : Connector) (h : AllEmpty m) :
    AllEmpty (mapTouch m c []) := by
  unfold mapTouch
  split
  · exact h
  · intro e he
    simp only [mapSet, List.mem_cons] at he
    rcases he with he | he
    · rw [he]
    · exact h e (List.mem_of_mem_filter he)

theorem mapGet_mapTouch (m : HandleSeqMap) (c : Connector) :
    mapGet (mapTouch m c []) c [] = mapGet m c [] := by
  unfold mapTouch
  split
  · rfl
  · rename_i h
    rw [mapGet_mapSet]
    unfold mapHas at h
    unfold mapGet
    cases hl : m.lookup c with
    | none => rfl
    | some v => simp [hl] at h

theorem select_from_open_state (nl : Section → Section → Atom → Nat) (cb : SimpleCallback)
    (frame : Frame) (fm : Section) (c : Connector) :
    ∃ os, (select_from_open nl cb frame fm c).1 = { cb with _opensel := os } ∧
      (AllEmpty cb._opensel._opensect → AllEmpty os._opensect) := by
  unfold select_from_open
  simp only
  split
  · obtain ⟨it, hit⟩ := check_self_state
      (with_opensect cb (mapTouch cb._opensel._opensect c []))
      (mapGet (with_opensect cb (mapTouch cb._opensel._opensect c []))._opensel._opensect c [])
      fm c (mapGet cb._opensel._openit c 0)
    exact ⟨{ _opensect := mapTouch cb._opensel._opensect c [], _openit := it }, hit,
      fun h => allEmpty_mapTouch _ _ h⟩
  · split
    · exact ⟨cb._opensel, rfl, fun h => h⟩
    · obtain ⟨it, hit⟩ := check_self_state
        (with_openit cb (mapSet cb._opensel._openit c 0))
        (scan_open cb.max_pair_links nl fm c frame._open_sections []) fm c 0
      exact ⟨{ _opensect := cb._opensel._opensect, _openit := it }, hit, fun h => h⟩

theorem select_from_open_result (nl : Section → Section → Atom → Nat) (cb : SimpleCallback)
    (frame : Frame) (fm : Section) (c : Connector) :
    (select_from_open nl cb frame fm c).2 = Handle.UNDEFINED ∨
    ∃ s, (select_from_open nl cb frame fm c).2 = Handle.sect s ∧
      (cb.allow_self_connections = false → s ≠ fm) ∧
      (s ∈ mapGet cb._opensel._opensect c [] ∨
        (s ∈ frame._open_sections ∧ c ∈ s.conseq ∧
          nl fm s c.linkty < cb.max_pair_links)) := by
  unfold select_from_open
  simp only
  split
  · rcases check_self_result
      (with_opensect cb (mapTouch cb._opensel._opensect c []))
      (mapGet (with_opensect cb (mapTouch cb._opensel._opensect c []))._opensel._opensect c [])
      fm c (mapGet cb._opensel._openit c 0) with h | ⟨s, h1, h2, h3⟩
    · exact Or.inl h
    · refine Or.inr ⟨s, h1, h3, Or.inl ?_⟩
      have e : (with_opensect cb (mapTouch cb._opensel._opensect c []))._opensel._opensect
          = mapTouch cb._opensel._opensect c [] := rfl
      rw [e, mapGet_mapTouch] at h2
      exact h2
  · split
    · exact Or.inl rfl
    · rcases check_self_result
        (with_openit cb (mapSet cb._opensel._openit c 0))
        (scan_open cb.max_pair_links nl fm c frame._open_sections []) fm c 0
        with h | ⟨s, h1, h2, h3⟩
      · exact Or.inl h
      · refine Or.inr ⟨s, h1, h3, Or.inr ?_⟩
        rcases scan_open_mem _ _ _ _ _ _ _ h2 with h4 | h4
        · simp at h4
        · exact h4

theorem select_from_lexis_state (dict : Dictionary) (cb : SimpleCallback) (c : Connector) :
    ∃ m, (select_from_lexis dict cb c).1 = with_lexlit cb m := by
  unfold select_from_lexis
  simp only
  split
  · split
    · exact ⟨cb._lexlit, rfl⟩
    · exact ⟨_, rfl⟩
  · split
    · exact ⟨_, rfl⟩
    · split
      · exact ⟨cb._lexlit, rfl⟩
      · exact ⟨_, rfl⟩

theorem select_state (dict : Dictionary) (nl : Section → Section → Atom → Nat)
    (cb : SimpleCallback) (frame : Frame) (fm : Section) (c : Connector) :
    ∃ os m, (select dict nl cb frame fm c).1 = { cb with _opensel := os, _lexlit := m } ∧
      (AllEmpty cb._opensel._opensect → AllEmpty os._opensect) := by
  obtain ⟨os, h1, h2⟩ := select_from_open_state nl cb frame fm c
  unfold select
  simp only
  split
  · split
    · exact ⟨os, cb._lexlit, by rw [h1], h2⟩
    · obtain ⟨m, hm⟩ := select_from_lexis_state dict (select_from_open nl cb frame fm c).1 c
      refine ⟨os, m, ?_, h2⟩
      rw [hm, h1]
      rfl
  · exact ⟨os, cb._lexlit, by rw [h1], h2⟩

theorem root_set_loop_opensel (dict : Dictionary) (roots : List Atom) (cb : SimpleCallback) :
    (root_set_loop dict roots cb)._opensel = cb._opensel ∧
    (root_set_loop dict roots cb)._opensel_stack = cb._opensel_stack := by
  induction roots generalizing cb with
  | nil => exact ⟨rfl, rfl⟩
  | cons r rest ih =>
    simp only [root_set_loop]
    exact ih _

theorem next_root_state (cb cb1 : SimpleCallback) (r : HandleSet)
    (h : next_root cb = .ok (cb1, r)) : ∃ iters, cb1 = { cb with _root_iters := iters } := by
  unfold next_root at h
  simp only at h
  split at h
  · cases h; exact ⟨cb._root_iters, rfl⟩
  · split at h
    · cases h; exact ⟨cb._root_iters, rfl⟩
    · split at h
      · cases h; exact ⟨cb._root_iters, rfl⟩
      · split at h
        · cases h
        · cases h; exact ⟨_, rfl⟩
        · cases h; exact ⟨_, rfl⟩

theorem reachable_noRecorded (dict : Dictionary) (cb : SimpleCallback)
    (h : Reachable dict cb) : NoRecorded cb := by
  induction h with
  | new a b c d e f => exact ⟨fun _ he => (by cases he), fun _ he => (by cases he)⟩
  | configure a b c d e f _ ih => exact ih
  | clear _ _ => exact ⟨fun _ he => (by cases he), fun _ he => (by cases he)⟩
  | @root_set cb roots _ _ =>
    obtain ⟨h1, h2⟩ := root_set_loop_opensel dict roots (clear cb)
    unfold NoRecorded root_set
    rw [h1, h2]
    exact ⟨fun _ he => (by cases he), fun _ he => (by cases he)⟩
  | @next_root cb cb1 r _ hn ih =>
    obtain ⟨iters, rfl⟩ := next_root_state cb cb1 r hn
    exact ih
  | @select_from_lexis cb c _ ih =>
    obtain ⟨m, hm⟩ := select_from_lexis_state dict cb c
    rw [hm]
    exact ih
  | @select_from_open cb a _ ih =>
    obtain ⟨os, h1, h2⟩ := select_from_open_state a.num_links cb a.frame a.fm_sect a.to_con
    rw [h1]
    exact ⟨h2 ih.1, ih.2⟩
  | @select cb a _ ih =>
    obtain ⟨os, m, h1, h2⟩ := select_state dict a.num_links cb a.frame a.fm_sect a.to_con
    rw [h1]
    exact ⟨h2 ih.1, ih.2⟩
  | @push_frame cb _ ih =>
    refine ⟨fun _ he => (by cases he), ?_⟩
    intro os hos
    simp only [push_frame, List.mem_cons] at hos
    rcases hos with hos | hos
    · rw [hos]; exact ih.1
    · exact ih.2 os hos
  | @pop_frame cb cb1 _ hp ih =>
    unfold pop_frame at hp
    split at hp
    · cases hp
    · rename_i top rest heq
      cases hp
      refine ⟨ih.2 top (by rw [heq]; simp), fun os hos => ih.2 os (by rw [heq]; simp [hos])⟩
  | push_odometer _ ih => exact ih
  | @pop_odometer cb cb1 _ hp ih =>
    unfold pop_odometer at hp
    split at hp
    · cases hp
    · cases hp
      exact ih
  | @step cb frm _ ih =>
    have : (step cb frm).1 = { cb with _steps_taken := (cb._steps_taken + 1) % SIZE_RANGE } := by
      unfold step
      simp only
      split
      · rfl
      · split
        · rfl
        · split
          · rfl
          · split <;> rfl
    rw [this]
    exact ih
  | solution frm _ ih => exact ih

/-- C7: with `allow_self_connections = false`, `select_from_open` never returns
the from-section, in any state; and in every reachable state, when each open
section exposing the connector is the from-section, it returns
`Handle::UNDEFINED`. -/
theorem C7_no_self_pairing (dict : Dictionary) (nl : Section → Section → Atom → Nat)
    (cb : SimpleCallback) (frame : Frame) (fm : Section) (c : Connector)
    (hself : cb.allow_self_connections = false) :
    (select_from_open nl cb frame fm c).2 ≠ Handle.sect fm ∧
    (Reachable dict cb → (∀ s ∈ frame._open_sections, c ∈ s.conseq → s = fm) →
      (select_from_open nl cb frame fm c).2 = Handle.UNDEFINED) := by
  constructor
  · intro h
    rcases select_from_open_result nl cb frame fm c with h1 | ⟨s, h1, h2, _⟩
    · rw [h1] at h; cases h
    · rw [h1] at h
      cases h
      exact h2 hself rfl
  · intro hreach honly
    rcases select_from_open_result nl cb frame fm c with h1 | ⟨s, h1, h2, h3⟩
    · exact h1
    · exfalso
      rcases h3 with h3 | ⟨h3, h4, _⟩
      · rw [mapGet_of_allEmpty _ _ (reachable_noRecorded dict cb hreach).1] at h3
        cases h3
      · exact h2 hself (honly s h3 h4)

theorem C7_no_self_pairing_witness :
    cbNew.allow_self_connections = false ∧
    (select_from_open no_links cbNew frameF secF conC).2 ≠ Handle.sect secF ∧
    (select_from_open no_links cbNew frameF secF conC).2 = Handle.UNDEFINED :=
  ⟨rfl, (C7_no_self_pairing dictL no_links cbNew frameF secF conC rfl).1,
    (C7_no_self_pairing dictL no_links cbNew frameF secF conC rfl).2
      (Reachable.new 10 10 10 10 1 false) (by decide)⟩

/-- C8: in every reachable state, a section `S` returned by `select_from_open`
has fewer than `max_pair_links` links of the connector's link type with the
from-section at the time of the call, so one more link stays within the cap. -/
theorem C8_pair_link_cap (dict : Dictionary) (nl : Section → Section → Atom → Nat)
    (cb : SimpleCallback) (frame : Frame) (fm : Section) (c : Connector) (S : Section)
    (hreach : Reachable dict cb)
    (hret : (select_from_open nl cb frame fm c).2 = Handle.sect S) :
    nl fm S c.linkty < cb.max_pair_links ∧ nl fm S c.linkty + 1 ≤ cb.max_pair_links := by
  rcases select_from_open_result nl cb frame fm c with h1 | ⟨s, h1, _, h3⟩
  · rw [h1] at hret; cases hret
  · rw [h1] at hret
    cases hret
    rcases h3 with h3 | ⟨_, _, h5⟩
    · rw [mapGet_of_allEmpty _ _ (reachable_noRecorded dict cb hreach).1] at h3
      cases h3
    · exact ⟨h5, h5⟩

theorem C8_pair_link_cap_witness :
    (Reachable dictL cbNew ∧
      (select_from_open no_links cbNew frameFG secA conC).2 = Handle.sect secF) ∧
    no_links secA secF conC.linkty < cbNew.max_pair_links ∧
    no_links secA secF conC.linkty + 1 ≤ cbNew.max_pair_links :=
  ⟨⟨Reachable.new 10 10 10 10 1 false, by decide⟩,
    C8_pair_link_cap dictL no_links cbNew frameFG secA conC secF
      (Reachable.new 10 10 10 10 1 false) (by decide)⟩

theorem mapHas_mapTouch {V : Type} (m : List (Connector × V)) (c : Connector) (d : V) :
    mapHas (mapTouch m c d) c = true := by
  unfold mapTouch
  split
  · assumption
  · simp [mapHas, mapSet, List.lookup]

/-- The part of the rule of `select` that the code keeps: once a cursor for
the connector exists when `select` is called, in a reachable state, `select`
returns `Handle::UNDEFINED` and leaves the lexicon cursor map alone. -/
theorem select_after_cursor (dict : Dictionary) (nl : Section → Section → Atom → Nat)
    (cb : SimpleCallback) (frame : Frame) (fm : Section) (c : Connector)
    (hreach : Reachable dict cb) (hfit : 0 < mapGet cb._opensel._openit c 0) :
    (select dict nl cb frame fm c).2 = Handle.UNDEFINED ∧
    (select dict nl cb frame fm c).1._lexlit = cb._lexlit := by
  have hempty := mapGet_of_allEmpty _ c (reachable_noRecorded dict cb hreach).1
  have hopen : select_from_open nl cb frame fm c =
      (with_opensect cb (mapTouch cb._opensel._opensect c []), Handle.UNDEFINED) := by
    unfold select_from_open
    simp only [hfit, if_true]
    have e : (with_opensect cb (mapTouch cb._opensel._opensect c []))._opensel._opensect
        = mapTouch cb._opensel._opensect c [] := rfl
    rw [e, mapGet_mapTouch, hempty]
    simp [check_self]
  unfold select
  simp only [hopen]
  have e : (with_opensect cb (mapTouch cb._opensel._opensect c []))._opensel._opensect
      = mapTouch cb._opensel._opensect c [] := rfl
  rw [e, mapHas_mapTouch]
  exact ⟨rfl, rfl⟩

/-! ## Checkpoints (C9, C10) -/

theorem run_append (dict : Dictionary) (xs ys : List Op) (cb : SimpleCallback) :
    run dict (xs ++ ys) cb =
      match run dict xs cb with
      | .error e => .error e
      | .ok cb1 => run dict ys cb1 := by
  induction xs generalizing cb with
  | nil => rfl
  | cons x rest ih =>
    simp only [List.cons_append, run]
    cases apply_op dict x cb with
    | error e => rfl
    | ok cb1 => exact ih cb1

theorem select_stacks (dict : Dictionary) (a : SelectCall) (cb : SimpleCallback) :
    (select dict a.num_links cb a.frame a.fm_sect a.to_con).1._opensel_stack
        = cb._opensel_stack ∧
    (select dict a.num_links cb a.frame a.fm_sect a.to_con).1._lexlit_stack
        = cb._lexlit_stack := by
  obtain ⟨os, m, h, _⟩ := select_state dict a.num_links cb a.frame a.fm_sect a.to_con
  rw [h]
  exact ⟨rfl, rfl⟩

theorem nested_run (dict : Dictionary) (ops : List Op) (h : Nested ops) :
    ∀ cb : SimpleCallback, ∃ cb1, run dict ops cb = .ok cb1 ∧
      cb1._opensel_stack = cb._opensel_stack ∧ cb1._lexlit_stack = cb._lexlit_stack := by
  induction h with
  | nil => intro cb; exact ⟨cb, rfl, rfl, rfl⟩
  | select a _ ih =>
    intro cb
    obtain ⟨cb1, h1, h2, h3⟩ := ih (select dict a.num_links cb a.frame a.fm_sect a.to_con).1
    obtain ⟨h4, h5⟩ := select_stacks dict a cb
    exact ⟨cb1, by simp only [run, apply_op]; exact h1, by rw [h2, h4], by rw [h3, h5]⟩
  | @frame inner rest _ _ ih1 ih2 =>
    intro cb
    obtain ⟨cb1, h1, h2, h3⟩ := ih1 (push_frame cb)
    have hp : pop_frame cb1 =
        .ok { cb1 with _opensel := cb._opensel, _opensel_stack := cb._opensel_stack } := by
      unfold pop_frame
      rw [h2]
      rfl
    obtain ⟨cb2, h4, h5, h6⟩ := ih2
      { cb1 with _opensel := cb._opensel, _opensel_stack := cb._opensel_stack }
    refine ⟨cb2, ?_, by rw [h5], by rw [h6, h3]; rfl⟩
    simp only [run, apply_op]
    rw [run_append, h1]
    simp only [run, apply_op, hp]
    exact h4
  | @odometer inner rest _ _ ih1 ih2 =>
    intro cb
    obtain ⟨cb1, h1, h2, h3⟩ := ih1 (push_odometer cb)
    have hp : pop_odometer cb1 =
        .ok { cb1 with _lexlit := cb._lexlit, _lexlit_stack := cb._lexlit_stack } := by
      unfold pop_odometer
      rw [h3]
      rfl
    obtain ⟨cb2, h4, h5, h6⟩ := ih2
      { cb1 with _lexlit := cb._lexlit, _lexlit_stack := cb._lexlit_stack }
    refine ⟨cb2, ?_, by rw [h5, h2]; rfl, by rw [h6]⟩
    simp only [run, apply_op]
    rw [run_append, h1]
    simp only [run, apply_op, hp]
    exact h4

theorem nested_opsW : Nested opsW :=
  Nested.select callFG
    (Nested.frame
      (Nested.select callFG (Nested.odometer (Nested.select callA Nested.nil) Nested.nil))
      (Nested.select callA Nested.nil))

/-- C9: from any state, `push_frame`, then any sequence of `select` calls and
properly nested push/pop pairs, then `pop_frame` runs without fault and leaves
the open-selection index (candidate lists and cursors) and the open-selection
stack exactly as they were before the push. -/
theorem C9_frame_checkpoint_roundtrip (dict : Dictionary) (ops : List Op)
    (cb : SimpleCallback) (hops : Nested ops) :
    ∃ cb1, run dict (Op.push_frame :: (ops ++ [Op.pop_frame])) cb = .ok cb1 ∧
      cb1._opensel = cb._opensel ∧ cb1._opensel_stack = cb._opensel_stack := by
  obtain ⟨cb1, h1, h2, h3⟩ := nested_run dict _ (Nested.frame hops Nested.nil) cb
  refine ⟨cb1, h1, ?_, h2⟩
  obtain ⟨cb2, h4, h5, _⟩ := nested_run dict ops hops (push_frame cb)
  simp only [run, apply_op] at h1
  rw [run_append, h4] at h1
  simp only [run, apply_op, pop_frame, h5] at h1
  have h6 : (push_frame cb)._opensel_stack = cb._opensel :: cb._opensel_stack := rfl
  rw [h6] at h1
  simp only at h1
  cases h1
  rfl

theorem C9_frame_checkpoint_roundtrip_witness :
    Nested opsW ∧
    ∃ cb1, run dictL (Op.push_frame :: (opsW ++ [Op.pop_frame]))
        (select dictL no_links cbNew frameFG secA conC).1 = .ok cb1 ∧
      cb1._opensel = (select dictL no_links cbNew frameFG secA conC).1._opensel ∧
      cb1._opensel_stack = (select dictL no_links cbNew frameFG secA conC).1._opensel_stack :=
  ⟨nested_opsW, C9_frame_checkpoint_roundtrip dictL opsW _ nested_opsW⟩

/-- C10: from any state, `push_odometer`, then any sequence of `select` calls
and properly nested push/pop pairs, then `pop_odometer` runs without fault and
leaves the lexicon cursor map and the lexicon cursor stack exactly as they
were before the push; right after `push_odometer` the cursor map is empty. -/
theorem C10_odometer_checkpoint_roundtrip (dict : Dictionary) (ops : List Op)
    (cb : SimpleCallback) (hops : Nested ops) :
    (∃ cb1, run dict (Op.push_odometer :: (ops ++ [Op.pop_odometer])) cb = .ok cb1 ∧
      cb1._lexlit = cb._lexlit ∧ cb1._lexlit_stack = cb._lexlit_stack) ∧
    (push_odometer cb)._lexlit = [] := by
  refine ⟨?_, rfl⟩
  obtain ⟨cb1, h1, h2, h3⟩ := nested_run dict _ (Nested.odometer hops Nested.nil) cb
  refine ⟨cb1, h1, ?_, h3⟩
  obtain ⟨cb2, h4, _, h5⟩ := nested_run dict ops hops (push_odometer cb)
  simp only [run, apply_op] at h1
  rw [run_append, h4] at h1
  simp only [run, apply_op, pop_odometer, h5] at h1
  have h6 : (push_odometer cb)._lexlit_stack = cb._lexlit :: cb._lexlit_stack := rfl
  rw [h6] at h1
  simp only at h1
  cases h1
  rfl

theorem C10_odometer_checkpoint_roundtrip_witness :
    Nested opsW ∧
    (∃ cb1, run dictL (Op.push_odometer :: (opsW ++ [Op.pop_odometer]))
        (select dictL no_links cbNew frameA secA conC).1 = .ok cb1 ∧
      cb1._lexlit = [(conC, 1)] ∧ cb1._lexlit_stack = []) ∧
    (push_odometer (select dictL no_links cbNew frameA secA conC).1)._lexlit = [] :=
  ⟨nested_opsW, C10_odometer_checkpoint_roundtrip dictL opsW _ nested_opsW⟩

/-! ## Limits (C11, C12, C13, C14) -/

theorem step_state (cb : SimpleCallback) (frm : Frame) :
    (step cb frm).1 = { cb with _steps_taken := (cb._steps_taken + 1) % SIZE_RANGE } := by
  unfold step
  simp only
  split
  · rfl
  · split
    · rfl
    · split
      · rfl
      · split <;> rfl

theorem step_result (cb : SimpleCallback) (frm : Frame) :
    (step cb frm).2 = false ↔
      (cb.max_steps < (cb._steps_taken + 1) % SIZE_RANGE ∨
        cb.max_solutions ≤ cb._num_solutions_found ∨
        cb.max_network_size < frm._linkage.length ∨
        cb.max_depth < frm._nodo) := by
  unfold step
  simp only
  by_cases h1 : cb.max_steps < (cb._steps_taken + 1) % SIZE_RANGE
  · simp [h1]
  · by_cases h2 : cb.max_solutions ≤ cb._num_solutions_found
    · simp [h1, h2]
    · by_cases h3 : cb.max_network_size < frm._linkage.length
      · simp [h1, h2, h3]
      · by_cases h4 : cb.max_depth < frm._nodo
        · simp [h1, h2, h3, h4]
        · simp [h1, h2, h3, h4]

/-- C11: as long as the `size_t` step counter does not overflow, `step` adds
exactly one to it, changes nothing else, and returns false exactly when, with
the counter already incremented, steps taken > `max_steps`, or solutions found
>= `max_solutions`, or the linkage size > `max_network_size`, or the depth >
`max_depth`; otherwise it returns true. -/
theorem C11_step_counts_and_limits (cb : SimpleCallback) (frm : Frame)
    (hno : cb._steps_taken + 1 < SIZE_RANGE) :
    (step cb frm).1 = { cb with _steps_taken := cb._steps_taken + 1 } ∧
    ((step cb frm).2 = false ↔
      (cb.max_steps < cb._steps_taken + 1 ∨
        cb.max_solutions ≤ cb._num_solutions_found ∨
        cb.max_network_size < frm._linkage.length ∨
        cb.max_depth < frm._nodo)) ∧
    ((step cb frm).2 = true ↔
      ¬ (cb.max_steps < cb._steps_taken + 1 ∨
        cb.max_solutions ≤ cb._num_solutions_found ∨
        cb.max_network_size < frm._linkage.length ∨
        cb.max_depth < frm._nodo)) := by
  have hmod : (cb._steps_taken + 1) % SIZE_RANGE = cb._steps_taken + 1 := Nat.mod_eq_of_lt hno
  have h1 := step_state cb frm
  have h2 := step_result cb frm
  rw [hmod] at h1 h2
  refine ⟨h1, h2, ?_⟩
  rw [← h2]
  cases (step cb frm).2 <;> simp

theorem C11_step_counts_and_limits_witness :
    cbSmall._steps_taken + 1 < SIZE_RANGE ∧
    (step cbSmall frameBig).1 = { cbSmall with _steps_taken := 1 } ∧
    ((step cbSmall frameBig).2 = false ↔
      (cbSmall.max_steps < cbSmall._steps_taken + 1 ∨
        cbSmall.max_solutions ≤ cbSmall._num_solutions_found ∨
        cbSmall.max_network_size < frameBig._linkage.length ∨
        cbSmall.max_depth < frameBig._nodo)) ∧
    ((step cbSmall frameBig).2 = true ↔
      ¬ (cbSmall.max_steps < cbSmall._steps_taken + 1 ∨
        cbSmall.max_solutions ≤ cbSmall._num_solutions_found ∨
        cbSmall.max_network_size < frameBig._linkage.length ∨
        cbSmall.max_depth < frameBig._nodo)) :=
  ⟨by decide, C11_step_counts_and_limits cbSmall frameBig (by decide)⟩

theorem step_seq_results :
    ∀ (frames : List Frame) (cb : SimpleCallback),
      cb._steps_taken + frames.length < SIZE_RANGE →
      cb._num_solutions_found < cb.max_solutions →
      (∀ (i : Nat) (h : i < frames.length), cb._steps_taken + i < cb.max_steps →
        frames[i]._linkage.length ≤ cb.max_network_size ∧ frames[i]._nodo ≤ cb.max_depth) →
      ∀ (i : Nat), i < frames.length →
        (step_seq frames cb).2[i]? = some (decide (cb._steps_taken + i < cb.max_steps)) := by
  intro frames
  induction frames with
  | nil => intro cb _ _ _ i hi; simp at hi
  | cons f rest ih =>
    intro cb hno hsol hcaps i hi
    have hmod : (cb._steps_taken + 1) % SIZE_RANGE = cb._steps_taken + 1 :=
      Nat.mod_eq_of_lt (by simp at hno; omega)
    have hst := step_state cb f
    rw [hmod] at hst
    cases i with
    | zero =>
      simp only [step_seq, List.getElem?_cons_zero, Nat.add_zero, Option.some.injEq]
      by_cases hlt : cb._steps_taken < cb.max_steps
      · have hc := hcaps 0 (by simp) (by simpa using hlt)
        simp only [List.getElem_cons_zero] at hc
        have hne : ¬ (step cb f).2 = false := by
          rw [step_result, hmod]
          omega
        simp only [hlt, decide_True]
        cases hb : (step cb f).2 with
        | true => rfl
        | false => exact absurd hb hne
      · have hf : (step cb f).2 = false := by
          rw [step_result, hmod]
          left
          omega
        simp [hf, hlt]
    | succ j =>
      simp only [step_seq, List.getElem?_cons_succ]
      have := ih (step cb f).1 (by rw [hst]; simp at hno ⊢; omega) (by rw [hst]; exact hsol)
        (by
          intro k hk hlt
          rw [hst] at hlt ⊢
          have := hcaps (k + 1) (by simp; omega) (by simp at hlt ⊢; omega)
          simpa using this)
        j (by simpa using hi)
      rw [this, hst]
      have e : cb._steps_taken + 1 + j = cb._steps_taken + (j + 1) := by omega
      simp only [e]

theorem new_fresh (a b c d e : Nat) (f : Bool) :
    (SimpleCallback.new a b c d e f)._steps_taken = 0 ∧
    (SimpleCallback.new a b c d e f)._num_solutions_found = 0 := ⟨rfl, rfl⟩

/-- C12: from a state whose step counter is 0 (as the constructor, `clear` and
`root_set` leave it), with fewer than `max_solutions` solutions recorded and
fewer than `2 ^ 64` calls in all, call number `i` (from 0) of `step` returns
true when `i < max_steps` and false when `i >= max_steps`, for any frames that
respect the size and depth caps during the first `max_steps` calls. -/
theorem C12_step_limit_sequence (cb : SimpleCallback) (frames : List Frame)
    (hfresh : cb._steps_taken = 0)
    (hsol : cb._num_solutions_found < cb.max_solutions)
    (hlen : frames.length < SIZE_RANGE)
    (hcaps : ∀ (i : Nat) (h : i < frames.length), i < cb.max_steps →
      frames[i]._linkage.length ≤ cb.max_network_size ∧ frames[i]._nodo ≤ cb.max_depth) :
    ∀ (i : Nat), i < frames.length →
      (step_seq frames cb).2[i]? = some (decide (i < cb.max_steps)) := by
  intro i hi
  have := step_seq_results frames cb (by rw [hfresh]; omega) hsol
    (by intro k hk hlt; rw [hfresh, Nat.zero_add] at hlt; exact hcaps k hk hlt) i hi
  rw [hfresh, Nat.zero_add] at this
  exact this

theorem C12_step_limit_sequence_witness :
    ((root_set dictAB cbSmall [0, 1])._steps_taken = 0 ∧
      (root_set dictAB cbSmall [0, 1])._num_solutions_found
        < (root_set dictAB cbSmall [0, 1]).max_solutions ∧
      [frameA, frameBig, frameOver, frameA].length < SIZE_RANGE) ∧
    (step_seq [frameA, frameBig, frameOver, frameA] (root_set dictAB cbSmall [0, 1])).2[1]?
      = some true ∧
    (step_seq [frameA, frameBig, frameOver, frameA] (root_set dictAB cbSmall [0, 1])).2[2]?
      = some false ∧
    (step_seq [frameA, frameBig, frameOver, frameA] (root_set dictAB cbSmall [0, 1])).2[3]?
      = some false :=
  ⟨⟨by decide, by decide, by decide⟩,
    C12_step_limit_sequence (root_set dictAB cbSmall [0, 1]) [frameA, frameBig, frameOver, frameA]
      (by decide) (by decide) (by decide) (by decide) 1 (by decide),
    C12_step_limit_sequence (root_set dictAB cbSmall [0, 1]) [frameA, frameBig, frameOver, frameA]
      (by decide) (by decide) (by decide) (by decide) 2 (by decide),
    C12_step_limit_sequence (root_set dictAB cbSmall [0, 1]) [frameA, frameBig, frameOver, frameA]
      (by decide) (by decide) (by decide) (by decide) 3 (by decide)⟩

theorem solution_seq_state :
    ∀ (sols : List Frame) (cb : SimpleCallback),
      cb._num_solutions_found + sols.length < SIZE_RANGE →
      solution_seq sols cb =
        { cb with _num_solutions_found := cb._num_solutions_found + sols.length } := by
  intro sols
  induction sols with
  | nil => intro cb _; rfl
  | cons f rest ih =>
    intro cb hno
    have hmod : (cb._num_solutions_found + 1) % SIZE_RANGE = cb._num_solutions_found + 1 :=
      Nat.mod_eq_of_lt (by simp at hno; omega)
    simp only [solution_seq]
    rw [ih (solution cb f) (by simp only [solution, hmod]; simp at hno ⊢; omega)]
    simp only [solution, hmod, List.length_cons]
    congr 1
    omega

theorem step_seq_all_false :
    ∀ (frames : List Frame) (cb : SimpleCallback),
      cb.max_solutions ≤ cb._num_solutions_found →
      ∀ b ∈ (step_seq frames cb).2, b = false := by
  intro frames
  induction frames with
  | nil => intro cb _ b hb; simp [step_seq] at hb
  | cons f rest ih =>
    intro cb hsol b hb
    simp only [step_seq, List.mem_cons] at hb
    rcases hb with hb | hb
    · rw [hb, step_result]
      exact Or.inr (Or.inl hsol)
    · exact ih (step cb f).1 (by rw [step_state]; exact hsol) b hb

/-- C13: `solution` adds exactly one to the solution counter (as long as the
`size_t` counter does not overflow) and changes nothing else, so the step
counter and all cursors stay as they are; and after `max_solutions` calls of
`solution` from a state with solution counter 0, every later `step` call
returns false, for every frame and whatever the step counter is. -/
theorem C13_solution_counts_and_stops (cb : SimpleCallback) (frm : Frame)
    (sols frames : List Frame)
    (hno : cb._num_solutions_found + 1 < SIZE_RANGE) :
    solution cb frm = { cb with _num_solutions_found := cb._num_solutions_found + 1 } ∧
    (cb._num_solutions_found = 0 → sols.length = cb.max_solutions →
      cb.max_solutions < SIZE_RANGE →
      ∀ b ∈ (step_seq frames (solution_seq sols cb)).2, b = false) := by
  constructor
  · simp only [solution, Nat.mod_eq_of_lt hno]
  · intro h0 hlen hmax
    have hst := solution_seq_state sols cb (by rw [h0, hlen]; omega)
    apply step_seq_all_false
    rw [hst]
    show cb.max_solutions ≤ cb._num_solutions_found + sols.length
    omega

theorem C13_solution_counts_and_stops_witness :
    cbSmall._num_solutions_found + 1 < SIZE_RANGE ∧
    solution cbSmall frameA = { cbSmall with _num_solutions_found := 1 } ∧
    ∀ b ∈ (step_seq [frameA, frameBig] (solution_seq [frameA, frameA] cbSmall)).2, b = false :=
  ⟨by decide, (C13_solution_counts_and_stops cbSmall frameA [frameA, frameA]
      [frameA, frameBig] (by decide)).1,
    (C13_solution_counts_and_stops cbSmall frameA [frameA, frameA]
      [frameA, frameBig] (by decide)).2 rfl rfl (by decide)⟩

/-- C14: whenever the steps taken exceed `max_steps` or the solutions recorded
have reached `max_solutions`, `next_root` returns the empty set and leaves the
whole state, root cursors included, as it was; in particular this is so in the
state left by a `step` call that hit the step or the solution limit, which
then returned false. -/
theorem C14_next_root_checks_limits (cb : SimpleCallback) (frm : Frame) :
    ((cb.max_steps < cb._steps_taken ∨ cb.max_solutions ≤ cb._num_solutions_found) →
      next_root cb = .ok (cb, ∅)) ∧
    ((cb.max_steps < (cb._steps_taken + 1) % SIZE_RANGE ∨
        cb.max_solutions ≤ cb._num_solutions_found) →
      (step cb frm).2 = false ∧ next_root (step cb frm).1 = .ok ((step cb frm).1, ∅)) := by
  have key : ∀ c : SimpleCallback,
      (c.max_steps < c._steps_taken ∨ c.max_solutions ≤ c._num_solutions_found) →
      next_root c = .ok (c, ∅) := by
    intro c h
    unfold next_root
    simp only
    split
    · rfl
    · rcases h with h | h
      · simp [h]
      · split
        · rfl
        · simp [h]
  refine ⟨key cb, ?_⟩
  intro h
  constructor
  · rw [step_result]
    rcases h with h | h
    · exact Or.inl h
    · exact Or.inr (Or.inl h)
  · apply key
    rw [step_state]
    exact h

theorem C14_next_root_checks_limits_witness :
    ((step_seq [frameA, frameA] (root_set dictAB cbSmall [0, 1])).1.max_steps
        < ((step_seq [frameA, frameA] (root_set dictAB cbSmall [0, 1])).1._steps_taken + 1)
          % SIZE_RANGE ∨
      (step_seq [frameA, frameA] (root_set dictAB cbSmall [0, 1])).1.max_solutions
        ≤ (step_seq [frameA, frameA] (root_set dictAB cbSmall [0, 1])).1._num_solutions_found) ∧
    (step (step_seq [frameA, frameA] (root_set dictAB cbSmall [0, 1])).1 frameA).2 = false ∧
    next_root (step (step_seq [frameA, frameA] (root_set dictAB cbSmall [0, 1])).1 frameA).1
      = .ok ((step (step_seq [frameA, frameA] (root_set dictAB cbSmall [0, 1])).1 frameA).1, ∅) :=
  ⟨by decide,
    (C14_next_root_checks_limits (step_seq [frameA, frameA] (root_set dictAB cbSmall [0, 1])).1
      frameA).2 (by decide)⟩

/-! ## Exhausted and empty odometers (C15, C16) -/

/-- C15, evaluated: two anchors with two entries each. Calls 6, 7 and 8 of
`next_root` return the empty set while digit 0 keeps advancing (cursors
`[0, 2]`, `[1, 2]`, `[2, 2]`); call 9 carries out of digit 0 into the last
digit, which already stands at its end, so the loop goes on with cursor 3 in a
list of length 2 and dereferences it: the call does not return the empty set. -/
theorem C15_exhaustion_not_idempotent :
    (List.range 9).map (fun n =>
        (next_root_nth n (root_set dictAB cbNew [0, 1])).map cursors_and_set) =
      [.ok ([1, 0], {rA1, rB1}), .ok ([2, 0], {rA2, rB1}), .ok ([0, 1], {rA1, rB2}),
        .ok ([1, 1], {rA1, rB2}), .ok ([2, 1], {rA2, rB2}), .ok ([0, 2], ∅),
        .ok ([1, 2], ∅), .ok ([2, 2], ∅), .error Fault.deref_past_end] ∧
    next_root_loop [[rA1, rA2], [rB1, rB2]] 2 2 0 [2, 2] ∅ =
      next_root_loop [[rA1, rA2], [rB1, rB2]] 2 1 1 [0, 3] {rA1} ∧
    next_root_loop [[rA1, rA2], [rB1, rB2]] 2 1 1 [0, 3] {rA1} =
      .error Fault.deref_past_end := by
  decide

/-- C16, evaluated: anchor 0 has no entry and is not the last anchor. The first
call of `next_root` finds its cursor at `end()`, resets it to `begin()`, which
is `end()` again, and dereferences it: the call does not return the empty set. -/
theorem C16_empty_anchor_dereferenced :
    (root_set dictE cbNew [0, 1])._root_sections = [[], [rB1, rB2]] ∧
    (root_set dictE cbNew [0, 1])._root_iters = [0, 0] ∧
    next_root (root_set dictE cbNew [0, 1]) = .error Fault.deref_past_end := by
  decide

/-! ## Empty checkpoint stacks (C17) -/

/-- C18, evaluated: the scan for `conC` from `secF` collects `[secF, secG]`;
`secF` at position 0 is skipped as self-pairing and `secG`, at position 1, is
returned, but the cursor stored for `conC` is 1, not 2. -/
theorem C18_cursor_not_past_returned :
    scan_open cbNew.max_pair_links no_links secF conC frameFG._open_sections [] = [secF, secG] ∧
    cbNew.allow_self_connections = false ∧
    (select_from_open no_links cbNew frameFG secF conC).2 = Handle.sect secG ∧
    [secF, secG][1]? = some secG ∧
    mapGet (select_from_open no_links cbNew frameFG secF conC).1._opensel._openit conC 0 = 1 := by
  decide

/-! ## The lexicon cycle (C19) -/

theorem mapHas_mapErase {V : Type} (m : List (Connector × V)) (c : Connector) :
    mapHas (mapErase m c) c = false := by
  simp [mapHas, lookup_mapErase]

theorem mapGet_mapErase {V : Type} (m : List (Connector × V)) (c : Connector) (d : V) :
    mapGet (mapErase m c) c d = d := by
  simp [mapGet, lookup_mapErase]

theorem select_from_lexis_ge (dict : Dictionary) (cb : SimpleCallback) (c : Connector)
    (hk : 1 ≤ (dict.connectables c).length)
    (hge : (dict.connectables c).length ≤ mapGet cb._lexlit c 0) :
    select_from_lexis dict cb c =
      (with_lexlit cb (mapErase cb._lexlit c), Handle.UNDEFINED) := by
  unfold select_from_lexis
  have h0 : ¬ 0 = mapGet cb._lexlit c 0 := by omega
  simp only [h0, if_false, hge, if_true]

theorem lexis_phase_lt (l : List Section) (p : Nat) (h : p < l.length) :
    lexis_phase l p = Handle.unique l[p] := by
  simp [lexis_phase, List.getElem?_eq_getElem h]

theorem lexis_phase_length (l : List Section) : lexis_phase l l.length = Handle.UNDEFINED := by
  simp [lexis_phase]

theorem select_from_lexis_phase (dict : Dictionary) (cb : SimpleCallback) (c : Connector)
    (hk : 1 ≤ (dict.connectables c).length)
    (hr : (dict.connectables c).length < UINT_RANGE) :
    (select_from_lexis dict cb c).2 =
        lexis_phase (dict.connectables c)
          (min (mapGet cb._lexlit c 0) (dict.connectables c).length) ∧
    min (mapGet (select_from_lexis dict cb c).1._lexlit c 0) (dict.connectables c).length =
      (min (mapGet cb._lexlit c 0) (dict.connectables c).length + 1)
        % ((dict.connectables c).length + 1) := by
  rcases Nat.lt_or_ge (mapGet cb._lexlit c 0) (dict.connectables c).length with hlt | hge
  · rw [select_from_lexis_lt dict cb c _ rfl hlt hr]
    have hmin : min (mapGet cb._lexlit c 0) (dict.connectables c).length
        = mapGet cb._lexlit c 0 := Nat.min_eq_left (Nat.le_of_lt hlt)
    rw [hmin]
    refine ⟨(lexis_phase_lt _ _ hlt).symm, ?_⟩
    show min (mapGet (mapSet cb._lexlit c (mapGet cb._lexlit c 0 + 1)) c 0) _ = _
    rw [mapGet_mapSet, Nat.mod_eq_of_lt (by omega)]
    exact Nat.min_eq_left hlt
  · rw [select_from_lexis_ge dict cb c hk hge]
    have hmin : min (mapGet cb._lexlit c 0) (dict.connectables c).length
        = (dict.connectables c).length := Nat.min_eq_right hge
    rw [hmin]
    refine ⟨(lexis_phase_length _).symm, ?_⟩
    show min (mapGet (mapErase cb._lexlit c) c 0) _ = _
    rw [mapGet_mapErase, Nat.mod_self]
    exact Nat.min_eq_left (Nat.zero_le _)

theorem select_from_lexis_nth_phase (dict : Dictionary) (c : Connector)
    (hk : 1 ≤ (dict.connectables c).length)
    (hr : (dict.connectables c).length < UINT_RANGE) :
    ∀ (n : Nat) (cb : SimpleCallback),
      (select_from_lexis_nth dict c n cb).2 =
        lexis_phase (dict.connectables c)
          ((min (mapGet cb._lexlit c 0) (dict.connectables c).length + n)
            % ((dict.connectables c).length + 1)) := by
  intro n
  induction n with
  | zero =>
    intro cb
    simp only [select_from_lexis_nth, Nat.add_zero]
    rw [(select_from_lexis_phase dict cb c hk hr).1, Nat.mod_eq_of_lt]
    have := Nat.min_le_right (mapGet cb._lexlit c 0) (dict.connectables c).length
    omega
  | succ n ih =>
    intro cb
    simp only [select_from_lexis_nth]
    rw [ih, (select_from_lexis_phase dict cb c hk hr).2, Nat.mod_add_mod]
    have e : min (mapGet cb._lexlit c 0) (dict.connectables c).length + 1 + n
        = min (mapGet cb._lexlit c 0) (dict.connectables c).length + (n + 1) := by omega
    rw [e]

/-- C19: for a connector with `k >= 1` connectables (`k` within the range of
the `unsigned` cursor), a `select_from_lexis` call that returns
`Handle::UNDEFINED` erases the cursor of the connector and the next call hands
out candidate 0 again; and call number `n` of any run of consecutive calls
hands out what stands at phase `(p + n) mod (k + 1)` of the cycle candidate 0,
..., candidate `k - 1`, `Handle::UNDEFINED`, where `p` is the phase the run
starts at (the cursor, 0 without one): the results have period `k + 1`. -/
theorem C19_lexis_cycle (dict : Dictionary) (cb : SimpleCallback) (c : Connector)
    (hk : 1 ≤ (dict.connectables c).length)
    (hr : (dict.connectables c).length < UINT_RANGE) :
    ((select_from_lexis dict cb c).2 = Handle.UNDEFINED →
      mapHas (select_from_lexis dict cb c).1._lexlit c = false ∧
      (select_from_lexis dict (select_from_lexis dict cb c).1 c).2 =
        lexis_phase (dict.connectables c) 0) ∧
    (∀ n : Nat, (select_from_lexis_nth dict c n cb).2 =
      lexis_phase (dict.connectables c)
        ((min (mapGet cb._lexlit c 0) (dict.connectables c).length + n)
          % ((dict.connectables c).length + 1))) ∧
    (∀ n : Nat, (select_from_lexis_nth dict c (n + ((dict.connectables c).length + 1)) cb).2 =
      (select_from_lexis_nth dict c n cb).2) ∧
    (∀ p : Nat, (h : p < (dict.connectables c).length) →
      lexis_phase (dict.connectables c) p = Handle.unique (dict.connectables c)[p]) ∧
    lexis_phase (dict.connectables c) (dict.connectables c).length = Handle.UNDEFINED := by
  refine ⟨?_, fun n => select_from_lexis_nth_phase dict c hk hr n cb, ?_,
    fun p h => lexis_phase_lt _ p h,
    lexis_phase_length _⟩
  · intro hund
    rcases Nat.lt_or_ge (mapGet cb._lexlit c 0) (dict.connectables c).length with hlt | hge
    · rw [select_from_lexis_lt dict cb c _ rfl hlt hr] at hund
      cases hund
    · have hstate := select_from_lexis_ge dict cb c hk hge
      rw [hstate]
      refine ⟨mapHas_mapErase _ _, ?_⟩
      have := (select_from_lexis_phase dict (with_lexlit cb (mapErase cb._lexlit c)) c hk hr).1
      rw [this]
      have e : mapGet (with_lexlit cb (mapErase cb._lexlit c))._lexlit c 0 = 0 :=
        mapGet_mapErase _ _ _
      rw [e, Nat.min_eq_left (Nat.zero_le _)]
  · intro n
    rw [select_from_lexis_nth_phase dict c hk hr, select_from_lexis_nth_phase dict c hk hr,
      ← Nat.add_assoc, Nat.add_mod_right]

theorem C19_lexis_cycle_witness :
    (1 ≤ (dictL.connectables conC).length ∧ (dictL.connectables conC).length < UINT_RANGE) ∧
    (select_from_lexis_nth dictL conC 2 cbNew).2 = Handle.UNDEFINED ∧
    (select_from_lexis_nth dictL conC 3 cbNew).2 = Handle.unique S1 ∧
    (select_from_lexis_nth dictL conC (1 + ((dictL.connectables conC).length + 1)) cbNew).2 =
      (select_from_lexis_nth dictL conC 1 cbNew).2 :=
  ⟨⟨by decide, by decide⟩,
    (C19_lexis_cycle dictL cbNew conC (by decide) (by decide)).2.1 2,
    (C19_lexis_cycle dictL cbNew conC (by decide) (by decide)).2.1 3,
    (C19_lexis_cycle dictL cbNew conC (by decide) (by decide)).2.2.1 1⟩

/-! ## Reset by `root_set` (C20) -/

/-- C20: after `root_set` on any prior state both counters are 0, both
checkpoint stacks, the lexicon cursor map and the open-selection index are
empty, and there is one candidate list with one cursor at position 0 per
anchor; the state is the one `root_set` builds on a freshly constructed
callback with the same limits, so whatever is computed from it later is the
same. -/
theorem C20_root_set_resets (dict : Dictionary) (cb : SimpleCallback) (roots : List Atom) :
    (root_set dict cb roots)._steps_taken = 0 ∧
    (root_set dict cb roots)._num_solutions_found = 0 ∧
    (root_set dict cb roots)._opensel_stack = [] ∧
    (root_set dict cb roots)._lexlit_stack = [] ∧
    (root_set dict cb roots)._lexlit = [] ∧
    (root_set dict cb roots)._opensel = { _opensect := [], _openit := [] } ∧
    (root_set dict cb roots)._root_sections = roots.map dict.entries ∧
    (root_set dict cb roots)._root_iters = List.replicate roots.length 0 ∧
    root_set dict cb roots =
      root_set dict (SimpleCallback.new cb.max_steps cb.max_solutions cb.max_network_size
        cb.max_depth cb.max_pair_links cb.allow_self_connections) roots ∧
    ∀ (β : Type) (later : SimpleCallback → β),
      later (root_set dict cb roots) =
        later (root_set dict (SimpleCallback.new cb.max_steps cb.max_solutions
          cb.max_network_size cb.max_depth cb.max_pair_links cb.allow_self_connections) roots) := by
  have hstate : root_set dict cb roots =
      root_set dict (SimpleCallback.new cb.max_steps cb.max_solutions cb.max_network_size
        cb.max_depth cb.max_pair_links cb.allow_self_connections) roots := by
    unfold root_set
    rfl
  have hloop := root_set_loop_roots dict roots (clear cb)
  refine ⟨?_, ?_, ?_, ?_, ?_, ?_, ?_, ?_, hstate, fun β later => by rw [← hstate]⟩
  all_goals unfold root_set
  all_goals rw [hloop]
  all_goals simp [clear]

end opencog
